import Mathlib

/-!
A shallow embedding of the Turso3D loose-octree spatial index
(`src/Turso3D/Scene/Octree.h`) together with proofs of the specified
properties.  Coordinates are modelled as rationals; machine floats only
enter through order comparisons here, which the rational order mirrors.

The repository excerpt contains the octree header (data model, the inline
`Octant::ChildIndex`, and the templated `Octree::FindNodes` /
`Octree::CollectNodes<T>`), but not `Octree.cpp`.  Definitions taken from
the header are embedded from the source; the mutation and raycast
algorithms whose bodies live in the missing `Octree.cpp` are modelled from
the specification text and carry a doc comment saying so.
-/

namespace Turso3D

/-- Tracked objects (`OctreeNode*` in the source) are identified by plain ids. -/
abbrev NodeId := Nat

/-- Rational stand-in for the source `Vector3` of floats. -/
structure Vector3 where
  x : ℚ
  y : ℚ
  z : ℚ
deriving DecidableEq, Repr

/-- Componentwise vector addition. -/
def Vector3.add (a b : Vector3) : Vector3 :=
  { x := a.x + b.x, y := a.y + b.y, z := a.z + b.z }

/-- Componentwise vector subtraction. -/
def Vector3.sub (a b : Vector3) : Vector3 :=
  { x := a.x - b.x, y := a.y - b.y, z := a.z - b.z }

/-- Componentwise halving, the `0.5f *` scaling used by the source. -/
def Vector3.half (a : Vector3) : Vector3 :=
  { x := a.x / 2, y := a.y / 2, z := a.z / 2 }

/-- Axis-aligned bounding box, an external bounding-volume primitive. -/
structure BoundingBox where
  min : Vector3
  max : Vector3
deriving DecidableEq, Repr

/-- Box center, `(min + max) * 0.5`. -/
def BoundingBox.Center (b : BoundingBox) : Vector3 :=
  (b.min.add b.max).half

/-- Box size, `max - min`. -/
def BoundingBox.Size (b : BoundingBox) : Vector3 :=
  b.max.sub b.min

/-- Three-way box-versus-volume classification used by all queries. -/
inductive Intersection where
  | OUTSIDE
  | INTERSECT
  | INSIDE
deriving DecidableEq, Repr

/-- Modelled from the spec: the external box-vs-box classification
capability returning OUTSIDE / INTERSECT / INSIDE
(`BoundingBox::IsInside(const BoundingBox&)`, whose source is not in the
excerpt).  Disjoint boxes are OUTSIDE, contained boxes INSIDE, all other
boxes INTERSECT. -/
def BoundingBox.IsInside (b : BoundingBox) (box : BoundingBox) : Intersection :=
  if box.max.x < b.min.x ∨ box.min.x > b.max.x ∨ box.max.y < b.min.y ∨ box.min.y > b.max.y ∨
      box.max.z < b.min.z ∨ box.min.z > b.max.z then
    Intersection.OUTSIDE
  else if box.min.x < b.min.x ∨ box.max.x > b.max.x ∨ box.min.y < b.min.y ∨ box.max.y > b.max.y ∨
      box.min.z < b.min.z ∨ box.max.z > b.max.z then
    Intersection.INTERSECT
  else
    Intersection.INSIDE

/-- Modelled from the spec: the `NF_ENABLED` bit of the node flag bitmask
(declared in the missing `OctreeNode.h`). -/
def NF_ENABLED : Nat := 1

/-- The externally owned state of a tracked object that the octree reads:
its world bounding box and its flag bitmask. -/
structure NodeData where
  worldBoundingBox : BoundingBox
  flags : Nat

/-- A volume capability as consumed by the templated query: an exact
box classification and a cheaper approximate one (spec section 6). -/
structure Volume where
  IsInside : BoundingBox → Intersection
  IsInsideFast : BoundingBox → Intersection

/-- Octree cell.  Fields mirror `struct Octant` of the header: culling box,
actual box, derived center and half size, subdivision level, contained
node list, aggregate node count, and eight optional children.  The parent
back-pointer of the source is implicit in this functional tree. -/
inductive Octant : Type where
  | mk (cullingBox : BoundingBox) (worldBoundingBox : BoundingBox) (center : Vector3)
      (halfSize : Vector3) (level : Nat) (nodes : List NodeId) (numNodes : Nat)
      (children : List (Option Octant))

/-- Field accessor for `cullingBox`. -/
def Octant.cullingBox : Octant → BoundingBox
  | .mk cb _ _ _ _ _ _ _ => cb

/-- Field accessor for `worldBoundingBox`. -/
def Octant.worldBoundingBox : Octant → BoundingBox
  | .mk _ wb _ _ _ _ _ _ => wb

/-- Field accessor for `center`. -/
def Octant.center : Octant → Vector3
  | .mk _ _ ce _ _ _ _ _ => ce

/-- Field accessor for `halfSize`. -/
def Octant.halfSize : Octant → Vector3
  | .mk _ _ _ hs _ _ _ _ => hs

/-- Field accessor for `level`. -/
def Octant.level : Octant → Nat
  | .mk _ _ _ _ lv _ _ _ => lv

/-- Field accessor for `nodes`. -/
def Octant.nodes : Octant → List NodeId
  | .mk _ _ _ _ _ ns _ _ => ns

/-- Field accessor for `numNodes`. -/
def Octant.numNodes : Octant → Nat
  | .mk _ _ _ _ _ _ num _ => num

/-- Field accessor for `children`. -/
def Octant.children : Octant → List (Option Octant)
  | .mk _ _ _ _ _ _ _ cs => cs

/-- From the header: `Octant::ChildIndex(position)`, the 3-bit child code
`(x < cx ? 0 : 1) + (y < cy ? 0 : 2) + (z < cz ? 0 : 4)`. -/
def Octant.ChildIndex (o : Octant) (position : Vector3) : Nat :=
  (if position.x < o.center.x then 0 else 1) +
    ((if position.y < o.center.y then 0 else 2) +
      (if position.z < o.center.z then 0 else 4))

/-- Modelled from the spec: `Octant::Initialize(parent, box, level)` (body
in the missing `Octree.cpp`): store the box, derive center and half size,
and expand the box by the looseness margin (one half size per direction)
to obtain the culling box.  No children are created. -/
def Octant.Initialize (boundingBox : BoundingBox) (level : Nat) : Octant :=
  Octant.mk
    { min := boundingBox.min.sub boundingBox.Size.half,
      max := boundingBox.max.add boundingBox.Size.half }
    boundingBox boundingBox.Center boundingBox.Size.half level [] 0
    (List.replicate 8 none)

/-- Modelled from the spec: `Octant::FitBoundingBox(box, boxSize)` (body in
the missing `Octree.cpp`): an object must stay at this level when its
extent reaches the octant's half size on some axis, or when its box
extends past the margin that a child's loose box would cover.  The exact
looseness ratio is a policy constant the spec leaves open; the comparison
of `boxSize` against `halfSize` is the specified hard requirement. -/
def Octant.FitBoundingBox (o : Octant) (box : BoundingBox) (boxSize : Vector3) : Bool :=
  decide (o.halfSize.x ≤ boxSize.x ∨ o.halfSize.y ≤ boxSize.y ∨ o.halfSize.z ≤ boxSize.z) ||
    decide (box.min.x ≤ o.worldBoundingBox.min.x - o.halfSize.half.x ∨
      box.max.x ≥ o.worldBoundingBox.max.x + o.halfSize.half.x ∨
      box.min.y ≤ o.worldBoundingBox.min.y - o.halfSize.half.y ∨
      box.max.y ≥ o.worldBoundingBox.max.y + o.halfSize.half.y ∨
      box.min.z ≤ o.worldBoundingBox.min.z - o.halfSize.half.z ∨
      box.max.z ≥ o.worldBoundingBox.max.z + o.halfSize.half.z)

/-- Modelled from the spec: the world box of the child octant with the
given 3-bit code, each bit selecting the positive or negative half of the
parent relative to its center (`Octree::CreateChildOctant` computes this in
the missing `Octree.cpp`). -/
def Octant.childBoundingBox (o : Octant) (index : Nat) : BoundingBox :=
  { min :=
      { x := if index &&& 1 ≠ 0 then o.center.x else o.worldBoundingBox.min.x,
        y := if index &&& 2 ≠ 0 then o.center.y else o.worldBoundingBox.min.y,
        z := if index &&& 4 ≠ 0 then o.center.z else o.worldBoundingBox.min.z },
    max :=
      { x := if index &&& 1 ≠ 0 then o.worldBoundingBox.max.x else o.center.x,
        y := if index &&& 2 ≠ 0 then o.worldBoundingBox.max.y else o.center.y,
        z := if index &&& 4 ≠ 0 then o.worldBoundingBox.max.z else o.center.z } }

/-- The child stored in slot `i` (absent children are `none`). -/
def Octant.getChild (o : Octant) (i : Nat) : Option Octant :=
  o.children.getD i none

/-- Replace the child stored in slot `i`. -/
def Octant.setChild (o : Octant) (i : Nat) (c : Option Octant) : Octant :=
  match o with
  | .mk cb wb ce hs lv ns num cs => .mk cb wb ce hs lv ns num (cs.set i c)

/-- Append a node to this octant's list and count it (`nodes.Push` plus the
first `++numNodes` of `Octree::AddNode`). -/
def Octant.pushNode (o : Octant) (n : NodeId) : Octant :=
  match o with
  | .mk cb wb ce hs lv ns num cs => .mk cb wb ce hs lv (ns ++ [n]) (num + 1) cs

/-- Increment the aggregate count, as `Octree::AddNode` does along the
whole parent branch. -/
def Octant.incNumNodes (o : Octant) : Octant :=
  match o with
  | .mk cb wb ce hs lv ns num cs => .mk cb wb ce hs lv ns (num + 1) cs

/-- Erase a node from this octant's list and uncount it (`nodes.Remove`
plus the local `--numNodes` of `Octree::RemoveNode`). -/
def Octant.eraseNodeHere (o : Octant) (n : NodeId) : Octant :=
  match o with
  | .mk cb wb ce hs lv ns num cs => .mk cb wb ce hs lv (ns.erase n) (num - 1) cs

/-- Decrement the aggregate count, as `Octree::RemoveNode` does along the
whole parent branch. -/
def Octant.decNumNodes (o : Octant) : Octant :=
  match o with
  | .mk cb wb ce hs lv ns num cs => .mk cb wb ce hs lv ns (num - 1) cs

mutual

/-- Every node stored in this subtree, together with the child-index path
of the octant holding it (relative to this octant). -/
def Octant.nodesWithPaths : Octant → List (NodeId × List Nat)
  | .mk _ _ _ _ _ ns _ cs =>
      ns.map (fun n => (n, [])) ++ nodesWithPathsChildren 0 cs

/-- Helper of `Octant.nodesWithPaths` walking the child slots, labelling
slot positions starting from `i`. -/
def nodesWithPathsChildren : Nat → List (Option Octant) → List (NodeId × List Nat)
  | _, [] => []
  | i, none :: rest => nodesWithPathsChildren (i + 1) rest
  | i, some o :: rest =>
      o.nodesWithPaths.map (fun q => (q.1, i :: q.2)) ++ nodesWithPathsChildren (i + 1) rest

end

/-- Every node stored in this subtree, in traversal order. -/
def Octant.allNodes (o : Octant) : List NodeId :=
  o.nodesWithPaths.map Prod.fst

/-- The contribution of one child slot to `Octant.nodesWithPaths`, with
the slot position `k` prefixed to the inner paths. -/
def optEntries (k : Nat) : Option Octant → List (NodeId × List Nat)
  | none => []
  | some o => o.nodesWithPaths.map (fun q => (q.1, k :: q.2))

/-- The `numNodes` counter of an optional child (absent children
contribute 0). -/
def optNum : Option Octant → Nat
  | none => 0
  | some o => o.numNodes

/-- Sum of the `numNodes` counters of a child slot list (absent children
contribute 0). -/
def childNumSum (cs : List (Option Octant)) : Nat :=
  (cs.map optNum).sum

mutual

/-- The aggregate-count invariant of the spec: at every octant of the
subtree, `numNodes` equals the length of the own node list plus the sum of
the children's `numNodes` (absent children contributing 0). -/
def Octant.CountOk : Octant → Bool
  | .mk _ _ _ _ _ ns num cs =>
      (num == ns.length + childNumSum cs) && childrenCountOk cs

/-- Helper of `Octant.CountOk` over the child slots. -/
def childrenCountOk : List (Option Octant) → Bool
  | [] => true
  | none :: rest => childrenCountOk rest
  | some o :: rest => o.CountOk && childrenCountOk rest

end

mutual

/-- The bundled structural invariant maintained by the mutation
operations: the aggregate-count equation, exactly eight child slots,
levels bounded by `numLevels`, and for every existing child a level one
deeper than its parent and a positive node count. -/
def Octant.InvB (numLevels : Nat) : Octant → Bool
  | .mk _ _ _ _ lv ns num cs =>
      (num == ns.length + childNumSum cs) && (cs.length == 8) &&
        decide (lv ≤ numLevels) && childrenInvB numLevels lv cs

/-- Helper of `Octant.InvB` over the child slots of an octant at level
`lv`. -/
def childrenInvB (numLevels lv : Nat) : List (Option Octant) → Bool
  | [] => true
  | none :: rest => childrenInvB numLevels lv rest
  | some o :: rest =>
      (o.level == lv + 1) && (1 ≤ o.numNodes) && Octant.InvB numLevels o &&
        childrenInvB numLevels lv rest

end

/-- The per-slot conjunct of `childrenInvB`: an absent child is fine, an
existing child must sit one level deeper, be nonempty, and satisfy the
bundled invariant. -/
def optInv (numLevels lv : Nat) : Option Octant → Bool
  | none => true
  | some o => (o.level == lv + 1) && (1 ≤ o.numNodes) && Octant.InvB numLevels o

/-- The octant reached from this octant by following a child-index path,
`none` if an octant on the path is absent. -/
def Octant.octantAt : List Nat → Octant → Option Octant
  | [], o => some o
  | i :: rest, o =>
      match o.getChild i with
      | none => none
      | some c => Octant.octantAt rest c

/-- The per-node filter of the collection routines, from the header's
`(flags & NF_ENABLED) && (flags & nodeFlags)`. -/
def nodeMatches (env : NodeId → NodeData) (nodeFlags : Nat) (n : NodeId) : Bool :=
  ((env n).flags &&& NF_ENABLED != 0) && ((env n).flags &&& nodeFlags != 0)

mutual

/-- Modelled from the spec: the flag-only overload
`Octree::CollectNodes(dest, octant, nodeFlags)` (body in the missing
`Octree.cpp`), which the INSIDE branch of the templated query uses to
collect every enabled, flag-matching node of the subtree with no further
geometric test. -/
def Octree.CollectNodesFlags (env : NodeId → NodeData) (nodeFlags : Nat) :
    Octant → List NodeId
  | .mk _ _ _ _ _ ns _ cs =>
      ns.filter (nodeMatches env nodeFlags) ++ collectFlagsChildren env nodeFlags cs

/-- Helper of `Octree.CollectNodesFlags` over the child slots. -/
def collectFlagsChildren (env : NodeId → NodeData) (nodeFlags : Nat) :
    List (Option Octant) → List NodeId
  | [] => []
  | none :: rest => collectFlagsChildren env nodeFlags rest
  | some o :: rest =>
      Octree.CollectNodesFlags env nodeFlags o ++ collectFlagsChildren env nodeFlags rest

end

mutual

/-- From the header: the templated
`Octree::CollectNodes<T>(dest, octant, volume, nodeFlags)`.  Classify the
octant's culling box against the volume; OUTSIDE returns nothing, INSIDE
delegates to the flag-only collection over the whole subtree, INTERSECT
tests each own node individually with the approximate test and then
recurses into existing children. -/
def Octree.CollectNodesVolume (env : NodeId → NodeData) (volume : Volume) (nodeFlags : Nat) :
    Octant → List NodeId
  | .mk cb wb ce hs lv ns num cs =>
      match volume.IsInside cb with
      | Intersection.OUTSIDE => []
      | Intersection.INSIDE =>
          Octree.CollectNodesFlags env nodeFlags (.mk cb wb ce hs lv ns num cs)
      | Intersection.INTERSECT =>
          ns.filter (fun n =>
            nodeMatches env nodeFlags n &&
              (volume.IsInsideFast (env n).worldBoundingBox != Intersection.OUTSIDE)) ++
            collectVolumeChildren env volume nodeFlags cs

/-- Helper of `Octree.CollectNodesVolume`: the loop over the eight child
slots that recurses only into children that exist. -/
def collectVolumeChildren (env : NodeId → NodeData) (volume : Volume) (nodeFlags : Nat) :
    List (Option Octant) → List NodeId
  | [] => []
  | none :: rest => collectVolumeChildren env volume nodeFlags rest
  | some o :: rest =>
      Octree.CollectNodesVolume env volume nodeFlags o ++
        collectVolumeChildren env volume nodeFlags rest

end

/-- The octree state: root octant, configured depth, the per-object
back-reference to its current octant (`OctreeNode::impl->octant`,
represented as the child-index path from the root), and the deferred
reinsertion queue. -/
structure Octree where
  root : Octant
  numLevels : Nat
  nodeOctant : List (NodeId × List Nat)
  updateQueue : List NodeId

/-- Look up the octant path recorded for a node (its back-reference);
`none` means the node is not tracked. -/
def lookupOctant : List (NodeId × List Nat) → NodeId → Option (List Nat)
  | [], _ => none
  | (k, p) :: rest, n => if k = n then some p else lookupOctant rest n

/-- Drop a node's back-reference. -/
def eraseOctant : List (NodeId × List Nat) → NodeId → List (NodeId × List Nat)
  | [], _ => []
  | (k, p) :: rest, n =>
      if k = n then eraseOctant rest n else (k, p) :: eraseOctant rest n

/-- Record a node's back-reference, replacing any previous one. -/
def setOctant (m : List (NodeId × List Nat)) (n : NodeId) (p : List Nat) :
    List (NodeId × List Nat) :=
  (n, p) :: eraseOctant m n

/-- From the header: `Octree::FindNodes(dest, volume, nodeFlags)` clears
the destination and collects from the root, so the prior contents of
`dest` never reach the result. -/
def Octree.FindNodes (st : Octree) (env : NodeId → NodeData) (dest : List NodeId)
    (volume : Volume) (nodeFlags : Nat) : List NodeId :=
  ([] : List NodeId) ++ Octree.CollectNodesVolume env volume nodeFlags st.root

/-- Modelled from the spec: the insertion descent of `Octree::InsertNode`
(body in the missing `Octree.cpp`).  At each level, if `FitBoundingBox`
says the object must stay, or the depth budget is exhausted (the `fuel`
argument, `numLevels` at the root, enforcing the hard depth cap), stop and
add the object to the current octant; otherwise pick the child slot with
`ChildIndex` on the object's box center, lazily create the child if
absent, descend, and on the way out store the updated child and increment
`numNodes` (the whole branch gets incremented, as in `Octree::AddNode`).
Returns the updated subtree and the path of the octant that received the
node. -/
def Octree.insertDescent (n : NodeId) (boxCenter : Vector3) (box : BoundingBox)
    (boxSize : Vector3) : Nat → Octant → Octant × List Nat
  | 0, o => (o.pushNode n, [])
  | fuel + 1, o =>
      if o.FitBoundingBox box boxSize then
        (o.pushNode n, [])
      else
        let idx := o.ChildIndex boxCenter
        let child :=
          match o.getChild idx with
          | some c => c
          | none => Octant.Initialize (o.childBoundingBox idx) (o.level + 1)
        let r := Octree.insertDescent n boxCenter box boxSize fuel child
        ((o.setChild idx (some r.1)).incNumNodes, idx :: r.2)

/-- Modelled from the spec: `Octree::InsertNode(node)` (body in the
missing `Octree.cpp`).  An object whose box the root's loose box does not
fully contain stays at the root (the never-fail edge policy); otherwise
the descent runs with depth budget `numLevels`.  The resulting octant is
recorded as the object's back-reference.  Called for objects that are not
currently tracked (fresh registrations, reinsertion after removal), so the
search starts from the root. -/
def Octree.InsertNode (st : Octree) (env : NodeId → NodeData) (n : NodeId) : Octree :=
  let box := (env n).worldBoundingBox
  let r :=
    if st.root.cullingBox.IsInside box ≠ Intersection.INSIDE then
      (st.root.pushNode n, ([] : List Nat))
    else
      Octree.insertDescent n box.Center box box.Size st.numLevels st.root
  { st with root := r.1, nodeOctant := setOctant st.nodeOctant n r.2 }

/-- Modelled from the spec: the removal walk of `Octree::RemoveNode(node,
octant)` (body in the missing `Octree.cpp`).  Erase the node at the end of
the path, decrement `numNodes` on every octant along the path back to the
root, and prune every octant that becomes empty (zero count and no live
children) except the root, clearing the parent's child slot. -/
def Octree.removeAtPath (n : NodeId) : List Nat → Octant → Octant
  | [], o => o.eraseNodeHere n
  | i :: rest, o =>
      match o.getChild i with
      | none => o
      | some c =>
          let c' := Octree.removeAtPath n rest c
          let o' :=
            if c'.numNodes == 0 && c'.children.all Option.isNone then o.setChild i none
            else o.setChild i (some c')
          o'.decNumNodes

/-- Modelled from the spec: `Octree::RemoveNode(node)` (body in the
missing `Octree.cpp`).  Removing an object that is not tracked is a no-op
by contract; otherwise the object is erased from its recorded octant and
its back-reference dropped. -/
def Octree.RemoveNode (st : Octree) (n : NodeId) : Octree :=
  match lookupOctant st.nodeOctant n with
  | none => st
  | some p =>
      { st with root := Octree.removeAtPath n p st.root,
                nodeOctant := eraseOctant st.nodeOctant n }

/-- Modelled from the spec: `Octree::QueueUpdate(node)` (body in the
missing `Octree.cpp`).  Mark an object as needing reinsertion; queueing an
already-queued object before the next drain is a no-op, keeping the queue
deduplicated. -/
def Octree.QueueUpdate (st : Octree) (n : NodeId) : Octree :=
  if n ∈ st.updateQueue then st
  else { st with updateQueue := st.updateQueue ++ [n] }

/-- Modelled from the spec: `Octree::CancelUpdate(node)` (body in the
missing `Octree.cpp`).  Unmark a pending reinsertion; cancelling an object
that is not queued is a no-op. -/
def Octree.CancelUpdate (st : Octree) (n : NodeId) : Octree :=
  { st with updateQueue := st.updateQueue.erase n }

/-- Modelled from the spec: one step of the `Octree::Update()` drain (body
in the missing `Octree.cpp`).  A queued object that is no longer tracked
is skipped; one whose recorded octant still fully contains its (possibly
moved) box and still fits it is left alone; any other is removed and
reinserted starting from the root. -/
def Octree.processUpdate (env : NodeId → NodeData) (st : Octree) (n : NodeId) : Octree :=
  match lookupOctant st.nodeOctant n with
  | none => st
  | some p =>
      match Octant.octantAt p st.root with
      | none => st
      | some oct =>
          if oct.cullingBox.IsInside (env n).worldBoundingBox = Intersection.INSIDE ∧
              oct.FitBoundingBox (env n).worldBoundingBox
                (env n).worldBoundingBox.Size = true then st
          else Octree.InsertNode (Octree.RemoveNode st n) env n

/-- Modelled from the spec: `Octree::Update()` (body in the missing
`Octree.cpp`).  Drain the queue once, processing each queued object once,
then clear the queue. -/
def Octree.Update (st : Octree) (env : NodeId → NodeData) : Octree :=
  let st' := st.updateQueue.foldl (Octree.processUpdate env) st
  { st' with updateQueue := [] }

/-- The state right after constructing the octree / the first `Resize`: a
fresh root with the configured bounds and depth, nothing tracked, nothing
queued. -/
def Octree.initialState (boundingBox : BoundingBox) (numLevels : Nat) : Octree :=
  { root := Octant.Initialize boundingBox 0, numLevels := numLevels,
    nodeOctant := [], updateQueue := [] }

/-- Modelled from the spec: `Octree::Resize(boundingBox, numLevels)` (body
in the missing `Octree.cpp`).  Tear down the whole non-root hierarchy,
reinitialize the root with the new bounds and depth, and reinsert every
previously tracked object. -/
def Octree.Resize (st : Octree) (env : NodeId → NodeData) (boundingBox : BoundingBox)
    (numLevels : Nat) : Octree :=
  let base : Octree :=
    { root := Octant.Initialize boundingBox 0, numLevels := numLevels,
      nodeOctant := [], updateQueue := st.updateQueue }
  (st.nodeOctant.map Prod.fst).foldl (fun s n => Octree.InsertNode s env n) base

/-- Ray primitive (external); the octree only hands it to the capability
functions below. -/
structure Ray where
  origin : Vector3
  direction : Vector3

/-- Raycast query result, mirroring `struct RaycastResult` of the header
(the opaque `extraData` pointer is omitted). -/
structure RaycastResult where
  position : Vector3
  normal : Vector3
  distance : ℚ
  node : NodeId
deriving DecidableEq, Repr

mutual

/-- Modelled from the spec: the raycast overload `Octree::CollectNodes(
dest, octant, ray, nodeFlags, maxDistance)` (body in the missing
`Octree.cpp`).  `rayBoxDist` is the external ray-vs-box capability
yielding a hit distance or no-hit; octants whose culling box the ray
misses, or first hits at or beyond `maxDistance`, are pruned with their
whole subtree.  Each enabled, flag-matching object delegates to the
object-specific ray test `onRaycast`, which appends zero or more results. -/
def Octree.CollectNodesRay (env : NodeId → NodeData)
    (onRaycast : NodeId → Ray → ℚ → List RaycastResult)
    (rayBoxDist : Ray → BoundingBox → Option ℚ) (ray : Ray) (nodeFlags : Nat)
    (maxDistance : ℚ) : Octant → List RaycastResult
  | .mk cb _ _ _ _ ns _ cs =>
      match rayBoxDist ray cb with
      | none => []
      | some octantDist =>
          if maxDistance ≤ octantDist then []
          else
            (ns.filter (nodeMatches env nodeFlags)).flatMap
                (fun n => onRaycast n ray maxDistance) ++
              collectRayChildren env onRaycast rayBoxDist ray nodeFlags maxDistance cs

/-- Helper of `Octree.CollectNodesRay` over the child slots. -/
def collectRayChildren (env : NodeId → NodeData)
    (onRaycast : NodeId → Ray → ℚ → List RaycastResult)
    (rayBoxDist : Ray → BoundingBox → Option ℚ) (ray : Ray) (nodeFlags : Nat)
    (maxDistance : ℚ) : List (Option Octant) → List RaycastResult
  | [] => []
  | none :: rest => collectRayChildren env onRaycast rayBoxDist ray nodeFlags maxDistance rest
  | some o :: rest =>
      Octree.CollectNodesRay env onRaycast rayBoxDist ray nodeFlags maxDistance o ++
        collectRayChildren env onRaycast rayBoxDist ray nodeFlags maxDistance rest

end

/-- Modelled from the spec: `Octree::Raycast(dest, ray, nodeFlags,
maxDistance)` (body in the missing `Octree.cpp`): clear the destination,
collect all hits along the ray, and return them sorted ascending by hit
distance. -/
def Octree.Raycast (st : Octree) (env : NodeId → NodeData)
    (onRaycast : NodeId → Ray → ℚ → List RaycastResult)
    (rayBoxDist : Ray → BoundingBox → Option ℚ) (dest : List RaycastResult) (ray : Ray)
    (nodeFlags : Nat) (maxDistance : ℚ) : List RaycastResult :=
  ([] : List RaycastResult) ++
    List.insertionSort (fun a b => a.distance ≤ b.distance)
      (Octree.CollectNodesRay env onRaycast rayBoxDist ray nodeFlags maxDistance st.root)

/-- The minimum-distance hit of a traversal, ties resolved in favor of the
hit found first. -/
def closestHit : List RaycastResult → Option RaycastResult
  | [] => none
  | h :: t => some (t.foldl (fun best x => if x.distance < best.distance then x else best) h)

instance : IsTotal RaycastResult (fun a b => a.distance ≤ b.distance) :=
  ⟨fun a b => le_total a.distance b.distance⟩

instance : IsTrans RaycastResult (fun a b => a.distance ≤ b.distance) :=
  ⟨fun _ _ _ hab hbc => le_trans hab hbc⟩

/-- Modelled from the spec: `Octree::RaycastSingle(ray, nodeFlags,
maxDistance)` (body in the missing `Octree.cpp`): the minimum-distance
result across the whole traversal, ties resolved by traversal/object
order (first found wins), or none when nothing is hit. -/
def Octree.RaycastSingle (st : Octree) (env : NodeId → NodeData)
    (onRaycast : NodeId → Ray → ℚ → List RaycastResult)
    (rayBoxDist : Ray → BoundingBox → Option ℚ) (ray : Ray) (nodeFlags : Nat)
    (maxDistance : ℚ) : Option RaycastResult :=
  closestHit (Octree.CollectNodesRay env onRaycast rayBoxDist ray nodeFlags maxDistance st.root)

/-- The octree states reachable through the public mutation interface,
starting from a freshly resized tree.  `InsertNode` is a private method
whose call sites only hand it objects that are not currently tracked,
which the corresponding premise records.  The environment (object boxes
and flags) may change between steps, reflecting objects moving. -/
inductive Octree.Reachable : Octree → Prop where
  | init : ∀ boundingBox numLevels,
      Octree.Reachable (Octree.initialState boundingBox numLevels)
  | insert : ∀ st env n, Octree.Reachable st → lookupOctant st.nodeOctant n = none →
      Octree.Reachable (Octree.InsertNode st env n)
  | remove : ∀ st n, Octree.Reachable st → Octree.Reachable (Octree.RemoveNode st n)
  | queue : ∀ st n, Octree.Reachable st → Octree.Reachable (Octree.QueueUpdate st n)
  | cancel : ∀ st n, Octree.Reachable st → Octree.Reachable (Octree.CancelUpdate st n)
  | update : ∀ st env, Octree.Reachable st → Octree.Reachable (Octree.Update st env)
  | resize : ∀ st env boundingBox numLevels, Octree.Reachable st →
      Octree.Reachable (Octree.Resize st env boundingBox numLevels)

/-- The full data-structure invariant: the bundled per-octant invariant at
the configured depth bound, a level-0 root, no node stored twice anywhere
in the tree, no node with two back-references, and back-references that
point exactly at the octants storing the nodes. -/
def Octree.WF (st : Octree) : Prop :=
  st.root.InvB st.numLevels = true ∧
  st.root.level = 0 ∧
  (st.root.nodesWithPaths.map Prod.fst).Nodup ∧
  (st.nodeOctant.map Prod.fst).Nodup ∧
  (∀ n p, lookupOctant st.nodeOctant n = some p ↔ (n, p) ∈ st.root.nodesWithPaths)

/-- Structural induction for `Octant` through the child slots. -/
def Octant.indOn {P : Octant → Prop}
    (step : ∀ cb wb ce hs lv ns num cs,
      (∀ o, some o ∈ cs → P o) → P (Octant.mk cb wb ce hs lv ns num cs)) :
    ∀ o, P o
  | .mk cb wb ce hs lv ns num cs =>
      step cb wb ce hs lv ns num cs (fun o _ => Octant.indOn step o)
termination_by o => sizeOf o
decreasing_by
  rename_i ho
  have h1 := List.sizeOf_lt_of_mem ho
  simp at h1 ⊢
  omega

@[simp]
theorem Octant.cullingBox_mk (cb wb ce hs lv ns num cs) :
    (Octant.mk cb wb ce hs lv ns num cs).cullingBox = cb := rfl

@[simp]
theorem Octant.worldBoundingBox_mk (cb wb ce hs lv ns num cs) :
    (Octant.mk cb wb ce hs lv ns num cs).worldBoundingBox = wb := rfl

@[simp]
theorem Octant.center_mk (cb wb ce hs lv ns num cs) :
    (Octant.mk cb wb ce hs lv ns num cs).center = ce := rfl

@[simp]
theorem Octant.halfSize_mk (cb wb ce hs lv ns num cs) :
    (Octant.mk cb wb ce hs lv ns num cs).halfSize = hs := rfl

@[simp]
theorem Octant.level_mk (cb wb ce hs lv ns num cs) :
    (Octant.mk cb wb ce hs lv ns num cs).level = lv := rfl

@[simp]
theorem Octant.nodes_mk (cb wb ce hs lv ns num cs) :
    (Octant.mk cb wb ce hs lv ns num cs).nodes = ns := rfl

@[simp]
theorem Octant.numNodes_mk (cb wb ce hs lv ns num cs) :
    (Octant.mk cb wb ce hs lv ns num cs).numNodes = num := rfl

@[simp]
theorem Octant.children_mk (cb wb ce hs lv ns num cs) :
    (Octant.mk cb wb ce hs lv ns num cs).children = cs := rfl

theorem childIndex_lt8 (o : Octant) (position : Vector3) : o.ChildIndex position < 8 := by
  unfold Octant.ChildIndex
  split <;> split <;> split <;> decide

theorem childIndex_testBit0 (o : Octant) (position : Vector3) :
    Nat.testBit (o.ChildIndex position) 0 = true ↔ o.center.x ≤ position.x := by
  unfold Octant.ChildIndex
  by_cases hx : position.x < o.center.x <;>
    by_cases hy : position.y < o.center.y <;>
      by_cases hz : position.z < o.center.z <;>
        simp only [hx, hy, hz, if_true, if_false, ite_true, ite_false] <;>
          first
            | exact iff_of_true (by decide) (not_lt.mp hx)
            | exact iff_of_false (by decide) (not_le.mpr hx)

theorem childIndex_testBit1 (o : Octant) (position : Vector3) :
    Nat.testBit (o.ChildIndex position) 1 = true ↔ o.center.y ≤ position.y := by
  unfold Octant.ChildIndex
  by_cases hx : position.x < o.center.x <;>
    by_cases hy : position.y < o.center.y <;>
      by_cases hz : position.z < o.center.z <;>
        simp only [hx, hy, hz, if_true, if_false, ite_true, ite_false] <;>
          first
            | exact iff_of_true (by decide) (not_lt.mp hy)
            | exact iff_of_false (by decide) (not_le.mpr hy)

theorem childIndex_testBit2 (o : Octant) (position : Vector3) :
    Nat.testBit (o.ChildIndex position) 2 = true ↔ o.center.z ≤ position.z := by
  unfold Octant.ChildIndex
  by_cases hx : position.x < o.center.x <;>
    by_cases hy : position.y < o.center.y <;>
      by_cases hz : position.z < o.center.z <;>
        simp only [hx, hy, hz, if_true, if_false, ite_true, ite_false] <;>
          first
            | exact iff_of_true (by decide) (not_lt.mp hz)
            | exact iff_of_false (by decide) (not_le.mpr hz)

/-- Claim C7: `ChildIndex` returns a value in `[0, 8)` formed as a 3-bit
code: bit 0 is set exactly when the position's x coordinate lies on the
positive side of the center, bit 1 for y, bit 2 for z. -/
theorem childIndex_bit_code (o : Octant) (position : Vector3) :
    o.ChildIndex position < 8 ∧
    (Nat.testBit (o.ChildIndex position) 0 = true ↔ o.center.x ≤ position.x) ∧
    (Nat.testBit (o.ChildIndex position) 1 = true ↔ o.center.y ≤ position.y) ∧
    (Nat.testBit (o.ChildIndex position) 2 = true ↔ o.center.z ≤ position.z) :=
  ⟨childIndex_lt8 o position, childIndex_testBit0 o position, childIndex_testBit1 o position,
    childIndex_testBit2 o position⟩

/-- Claim C10: a coordinate exactly equal to the center's coordinate
classifies to the positive half on that axis (the bit is set on
equality); in particular the center itself gets child index 7. -/
theorem childIndex_boundary_positive (o : Octant) (position : Vector3) :
    (position.x = o.center.x → Nat.testBit (o.ChildIndex position) 0 = true) ∧
    (position.y = o.center.y → Nat.testBit (o.ChildIndex position) 1 = true) ∧
    (position.z = o.center.z → Nat.testBit (o.ChildIndex position) 2 = true) ∧
    o.ChildIndex o.center = 7 := by
  refine ⟨fun h => (childIndex_testBit0 o position).mpr h.ge,
    fun h => (childIndex_testBit1 o position).mpr h.ge,
    fun h => (childIndex_testBit2 o position).mpr h.ge, ?_⟩
  unfold Octant.ChildIndex
  simp [lt_irrefl]

/-- Claim C9: `FindNodes` clears the destination before collecting, so its
result does not depend on the destination's prior contents. -/
theorem findNodes_ignores_dest (st : Octree) (env : NodeId → NodeData)
    (dest dest' : List NodeId) (volume : Volume) (nodeFlags : Nat) :
    Octree.FindNodes st env dest volume nodeFlags =
        Octree.FindNodes st env dest' volume nodeFlags ∧
      Octree.FindNodes st env dest volume nodeFlags =
        Octree.FindNodes st env [] volume nodeFlags :=
  ⟨rfl, rfl⟩

/-- Claim C8: queueing twice before a drain equals queueing once,
cancelling an unqueued object is a no-op, and removing an untracked
object is a no-op; none of these signals an error. -/
theorem queue_and_remove_noop (st : Octree) (n m k : NodeId) :
    Octree.QueueUpdate (Octree.QueueUpdate st n) n = Octree.QueueUpdate st n ∧
    (m ∉ st.updateQueue → Octree.CancelUpdate st m = st) ∧
    (lookupOctant st.nodeOctant k = none → Octree.RemoveNode st k = st) := by
  refine ⟨?_, ?_, ?_⟩
  · by_cases h : n ∈ st.updateQueue
    · simp [Octree.QueueUpdate, h]
    · simp [Octree.QueueUpdate, h]
  · intro h
    cases st
    simp [Octree.CancelUpdate, List.erase_of_not_mem h]
  · intro h
    simp [Octree.RemoveNode, h]

theorem map_fst_map_cons (l : List (NodeId × List Nat)) (i : Nat) :
    (l.map (fun q => (q.1, i :: q.2))).map Prod.fst = l.map Prod.fst := by
  simp [List.map_map]

theorem collectFlagsChildren_eq_filter (env : NodeId → NodeData) (nodeFlags : Nat)
    (cs : List (Option Octant))
    (ih : ∀ o, some o ∈ cs → Octree.CollectNodesFlags env nodeFlags o =
      o.allNodes.filter (nodeMatches env nodeFlags)) :
    ∀ j, collectFlagsChildren env nodeFlags cs =
      ((nodesWithPathsChildren j cs).map Prod.fst).filter (nodeMatches env nodeFlags) := by
  induction cs with
  | nil => intro j; simp [collectFlagsChildren, nodesWithPathsChildren]
  | cons c rest ihr =>
      intro j
      cases c with
      | none =>
          rw [collectFlagsChildren, nodesWithPathsChildren]
          exact ihr (fun o ho => ih o (List.mem_cons_of_mem _ ho)) (j + 1)
      | some o =>
          rw [collectFlagsChildren, nodesWithPathsChildren]
          rw [List.map_append, List.filter_append, map_fst_map_cons]
          rw [ih o (List.mem_cons_self _ _), Octant.allNodes,
            ihr (fun o' ho' => ih o' (List.mem_cons_of_mem _ ho')) (j + 1)]

theorem collectNodesFlags_eq_filter (env : NodeId → NodeData) (nodeFlags : Nat) :
    ∀ o : Octant,
      Octree.CollectNodesFlags env nodeFlags o = o.allNodes.filter (nodeMatches env nodeFlags) := by
  apply Octant.indOn
  intro cb wb ce hs lv ns num cs ih
  rw [Octree.CollectNodesFlags, Octant.allNodes, Octant.nodesWithPaths]
  rw [List.map_append, List.filter_append]
  have h1 : (ns.map (fun n => (n, ([] : List Nat)))).map Prod.fst = ns := by
    simp [List.map_map, Function.comp_def]
  rw [h1, collectFlagsChildren_eq_filter env nodeFlags cs
    (fun o ho => by
      have := ih o ho
      rw [this]) 0]

theorem mem_collectNodesFlags (env : NodeId → NodeData) (nodeFlags : Nat) (o : Octant)
    (n : NodeId) :
    n ∈ Octree.CollectNodesFlags env nodeFlags o ↔
      n ∈ o.allNodes ∧ nodeMatches env nodeFlags n = true := by
  rw [collectNodesFlags_eq_filter, List.mem_filter]

/-- Claim C2: the templated volume query follows the three-way
classification of the culling box: OUTSIDE collects nothing from the
subtree, INSIDE collects exactly the enabled flag-matching nodes of the
whole subtree with no per-object geometric test, INTERSECT filters the
octant's own nodes with the approximate per-object test and then walks
only the children that exist. -/
theorem collectNodesVolume_classification (env : NodeId → NodeData) (volume : Volume)
    (nodeFlags : Nat) (o : Octant) :
    (volume.IsInside o.cullingBox = Intersection.OUTSIDE →
      Octree.CollectNodesVolume env volume nodeFlags o = []) ∧
    (volume.IsInside o.cullingBox = Intersection.INSIDE →
      Octree.CollectNodesVolume env volume nodeFlags o =
          Octree.CollectNodesFlags env nodeFlags o ∧
        ∀ n, n ∈ Octree.CollectNodesFlags env nodeFlags o ↔
          n ∈ o.allNodes ∧ nodeMatches env nodeFlags n = true) ∧
    (volume.IsInside o.cullingBox = Intersection.INTERSECT →
      Octree.CollectNodesVolume env volume nodeFlags o =
        o.nodes.filter (fun n =>
          nodeMatches env nodeFlags n &&
            (volume.IsInsideFast (env n).worldBoundingBox != Intersection.OUTSIDE)) ++
          collectVolumeChildren env volume nodeFlags o.children) ∧
    (∀ rest, collectVolumeChildren env volume nodeFlags (none :: rest) =
      collectVolumeChildren env volume nodeFlags rest) := by
  obtain ⟨cb, wb, ce, hs, lv, ns, num, cs⟩ := o
  refine ⟨?_, ?_, ?_, ?_⟩
  · intro h
    rw [Octree.CollectNodesVolume]
    simp only [Octant.cullingBox_mk] at h
    rw [h]
  · intro h
    simp only [Octant.cullingBox_mk] at h
    constructor
    · rw [Octree.CollectNodesVolume, h]
    · intro n
      exact mem_collectNodesFlags env nodeFlags _ n
  · intro h
    simp only [Octant.cullingBox_mk] at h
    rw [Octree.CollectNodesVolume, h]
    rfl
  · intro rest
    rw [collectVolumeChildren]

theorem foldlMin_spec (t : List RaycastResult) :
    ∀ h : RaycastResult,
      (t.foldl (fun best x => if x.distance < best.distance then x else best) h) ∈ h :: t ∧
        ∀ x ∈ h :: t,
          (t.foldl (fun best x => if x.distance < best.distance then x else best) h).distance ≤
            x.distance := by
  induction t with
  | nil =>
      intro h
      refine ⟨List.mem_singleton_self _, ?_⟩
      intro x hx
      rw [List.mem_singleton] at hx
      rw [hx, List.foldl_nil]
  | cons a t iht =>
      intro h
      rw [List.foldl_cons]
      obtain ⟨hmem, hmin⟩ := iht (if a.distance < h.distance then a else h)
      have hres := hmin _ (List.mem_cons_self _ _)
      have hhead1 : (if a.distance < h.distance then a else h).distance ≤ h.distance := by
        by_cases hc : a.distance < h.distance
        · rw [if_pos hc]; exact le_of_lt hc
        · rw [if_neg hc]
      have hhead2 : (if a.distance < h.distance then a else h).distance ≤ a.distance := by
        by_cases hc : a.distance < h.distance
        · rw [if_pos hc]
        · rw [if_neg hc]; exact not_lt.mp hc
      constructor
      · rcases List.mem_cons.mp hmem with he | ht'
        · rw [he]
          by_cases hc : a.distance < h.distance
          · rw [if_pos hc]
            exact List.mem_cons_of_mem _ (List.mem_cons_self _ _)
          · rw [if_neg hc]
            exact List.mem_cons_self _ _
        · exact List.mem_cons_of_mem _ (List.mem_cons_of_mem _ ht')
      · intro x hx
        rcases List.mem_cons.mp hx with hxh | hx'
        · rw [hxh]
          exact le_trans hres hhead1
        · rcases List.mem_cons.mp hx' with hxa | hxt
          · rw [hxa]
            exact le_trans hres hhead2
          · exact hmin _ (List.mem_cons_of_mem _ hxt)

theorem closestHit_spec (l : List RaycastResult) (m : RaycastResult)
    (hm : closestHit l = some m) : m ∈ l ∧ ∀ x ∈ l, m.distance ≤ x.distance := by
  cases l with
  | nil => simp [closestHit] at hm
  | cons h t =>
      rw [closestHit, Option.some_inj] at hm
      obtain ⟨hmem, hmin⟩ := foldlMin_spec t h
      rw [hm] at hmem hmin
      exact ⟨hmem, hmin⟩

/-- Claim C4: for a fixed ray, flag mask and maximum distance, the
distance of `RaycastSingle`'s result equals the distance of the first
element of `Raycast`'s ascending-sorted hit list, and it is a lower bound
on every hit `Raycast` returns. -/
theorem raycastSingle_min_of_raycast (st : Octree) (env : NodeId → NodeData)
    (onRaycast : NodeId → Ray → ℚ → List RaycastResult)
    (rayBoxDist : Ray → BoundingBox → Option ℚ) (dest : List RaycastResult) (ray : Ray)
    (nodeFlags : Nat) (maxDistance : ℚ) :
    ((Octree.RaycastSingle st env onRaycast rayBoxDist ray nodeFlags maxDistance).map
        RaycastResult.distance =
      ((Octree.Raycast st env onRaycast rayBoxDist dest ray nodeFlags maxDistance).head?).map
        RaycastResult.distance) ∧
    (∀ r ∈ Octree.Raycast st env onRaycast rayBoxDist dest ray nodeFlags maxDistance,
      ∀ s, Octree.RaycastSingle st env onRaycast rayBoxDist ray nodeFlags maxDistance = some s →
        s.distance ≤ r.distance) := by
  have hray : Octree.Raycast st env onRaycast rayBoxDist dest ray nodeFlags maxDistance =
      List.insertionSort (fun a b => a.distance ≤ b.distance)
        (Octree.CollectNodesRay env onRaycast rayBoxDist ray nodeFlags maxDistance st.root) := by
    rw [Octree.Raycast, List.nil_append]
  have hsingle : Octree.RaycastSingle st env onRaycast rayBoxDist ray nodeFlags maxDistance =
      closestHit (Octree.CollectNodesRay env onRaycast rayBoxDist ray nodeFlags maxDistance
        st.root) := rfl
  generalize hl : Octree.CollectNodesRay env onRaycast rayBoxDist ray nodeFlags maxDistance
    st.root = l at hray hsingle
  have hperm := List.perm_insertionSort (fun a b : RaycastResult =>
    a.distance ≤ b.distance) l
  have hsorted := List.sorted_insertionSort (fun a b : RaycastResult =>
    a.distance ≤ b.distance) l
  cases hcl : closestHit l with
  | none =>
      have hnil : l = [] := by
        cases l with
        | nil => rfl
        | cons h t => simp [closestHit] at hcl
      subst hnil
      constructor
      · rw [hray, hsingle, hcl]
        rfl
      · intro r hr
        rw [hray] at hr
        simp at hr
  | some m =>
      obtain ⟨hmem, hmin⟩ := closestHit_spec l m hcl
      have hlne : l ≠ [] := by
        intro hcon
        rw [hcon] at hmem
        simp at hmem
      have hnontriv : List.insertionSort (fun a b : RaycastResult =>
          a.distance ≤ b.distance) l ≠ [] := by
        intro hcon
        apply hlne
        have hlen := hperm.length_eq
        rw [hcon, List.length_nil] at hlen
        exact List.eq_nil_of_length_eq_zero hlen.symm
      obtain ⟨h, t, ht⟩ := List.exists_cons_of_ne_nil hnontriv
      have hhl : h ∈ l := hperm.mem_iff.mp (ht ▸ List.mem_cons_self _ _)
      have hms : m ∈ List.insertionSort (fun a b : RaycastResult =>
          a.distance ≤ b.distance) l := hperm.mem_iff.mpr hmem
      have hhm : h.distance ≤ m.distance := by
        rw [ht] at hms hsorted
        rcases List.mem_cons.mp hms with he | hmt
        · rw [he]
        · exact (List.sorted_cons.mp hsorted).1 m hmt
      have hmh : m.distance ≤ h.distance := hmin h hhl
      constructor
      · rw [hray, hsingle, hcl, ht]
        simp [le_antisymm hmh hhm]
      · intro r hr s hs
        rw [hsingle, hcl, Option.some_inj] at hs
        rw [hray] at hr
        exact hs ▸ hmin r (hperm.mem_iff.mp hr)

theorem lookupOctant_eraseOctant (m : List (NodeId × List Nat)) (n k : NodeId) :
    lookupOctant (eraseOctant m n) k = if k = n then none else lookupOctant m k := by
  induction m with
  | nil => simp [eraseOctant, lookupOctant]
  | cons q rest ih =>
      obtain ⟨a, p⟩ := q
      rw [eraseOctant]
      by_cases han : a = n
      · rw [if_pos han, ih]
        by_cases hkn : k = n
        · rw [if_pos hkn, if_pos hkn]
        · rw [if_neg hkn, if_neg hkn, lookupOctant,
            if_neg (fun hak : a = k => hkn (hak.symm.trans han))]
      · rw [if_neg han, lookupOctant, lookupOctant]
        by_cases hak : a = k
        · rw [if_pos hak, if_pos hak,
            if_neg (fun hkn : k = n => han (hak.trans hkn))]
        · rw [if_neg hak, if_neg hak, ih]

theorem lookupOctant_setOctant (m : List (NodeId × List Nat)) (n : NodeId) (p : List Nat)
    (k : NodeId) :
    lookupOctant (setOctant m n p) k = if k = n then some p else lookupOctant m k := by
  rw [setOctant, lookupOctant]
  by_cases hnk : n = k
  · rw [if_pos hnk, if_pos hnk.symm]
  · rw [if_neg hnk, if_neg (fun h : k = n => hnk h.symm), lookupOctant_eraseOctant,
      if_neg (fun h : k = n => hnk h.symm)]

theorem lookupOctant_none_iff (m : List (NodeId × List Nat)) (n : NodeId) :
    lookupOctant m n = none ↔ n ∉ m.map Prod.fst := by
  induction m with
  | nil => simp [lookupOctant]
  | cons q rest ih =>
      obtain ⟨a, p⟩ := q
      rw [lookupOctant]
      by_cases han : a = n
      · simp [han]
      · simp only [if_neg han, ih, List.map_cons, List.mem_cons]
        constructor
        · intro h hmem
          rcases hmem with h1 | h2
          · exact han h1.symm
          · exact h h2
        · intro h h2
          exact h (Or.inr h2)

theorem eraseOctant_of_lookup_none (m : List (NodeId × List Nat)) (n : NodeId)
    (h : lookupOctant m n = none) : eraseOctant m n = m := by
  induction m with
  | nil => rfl
  | cons q rest ih =>
      obtain ⟨a, p⟩ := q
      rw [lookupOctant] at h
      by_cases han : a = n
      · rw [if_pos han] at h
        exact absurd h (by simp)
      · rw [if_neg han] at h
        rw [eraseOctant, if_neg han, ih h]

theorem eraseOctant_keys_sublist (m : List (NodeId × List Nat)) (n : NodeId) :
    ((eraseOctant m n).map Prod.fst).Sublist (m.map Prod.fst) := by
  induction m with
  | nil => simp [eraseOctant]
  | cons q rest ih =>
      obtain ⟨a, p⟩ := q
      rw [eraseOctant]
      by_cases han : a = n
      · rw [if_pos han]
        exact ih.trans (List.sublist_cons_self _ _)
      · rw [if_neg han, List.map_cons, List.map_cons]
        exact ih.cons₂ a

theorem not_mem_eraseOctant_keys (m : List (NodeId × List Nat)) (n : NodeId) :
    n ∉ (eraseOctant m n).map Prod.fst := by
  induction m with
  | nil => simp [eraseOctant]
  | cons q rest ih =>
      obtain ⟨a, p⟩ := q
      rw [eraseOctant]
      by_cases han : a = n
      · rw [if_pos han]
        exact ih
      · rw [if_neg han, List.map_cons]
        intro hmem
        rcases List.mem_cons.mp hmem with h1 | h2
        · exact han h1.symm
        · exact ih h2

theorem getD_set_self (l : List (Option Octant)) (i : Nat) (c : Option Octant)
    (hi : i < l.length) : (l.set i c).getD i none = c := by
  induction l generalizing i with
  | nil => simp at hi
  | cons a rest ih =>
      cases i with
      | zero => rfl
      | succ j =>
          rw [List.set_cons_succ]
          simp only [List.getD_cons_succ]
          exact ih j (by simpa using hi)

theorem set_getD_eq_self (l : List (Option Octant)) (i : Nat) (hi : i < l.length) :
    l.set i (l.getD i none) = l := by
  induction l generalizing i with
  | nil => rfl
  | cons a rest ih =>
      cases i with
      | zero => rfl
      | succ j =>
          rw [List.set_cons_succ]
          simp only [List.getD_cons_succ]
          rw [ih j (by simpa using hi)]

theorem set_set_same (l : List (Option Octant)) (i : Nat) (a b : Option Octant) :
    (l.set i a).set i b = l.set i b := List.set_set a b l i

theorem nwpChildren_cons (i : Nat) (c : Option Octant) (rest : List (Option Octant)) :
    nodesWithPathsChildren i (c :: rest) =
      optEntries i c ++ nodesWithPathsChildren (i + 1) rest := by
  cases c with
  | none => rw [nodesWithPathsChildren, optEntries, List.nil_append]
  | some o => rw [nodesWithPathsChildren, optEntries]

theorem childrenInvB_cons (nl lv : Nat) (c : Option Octant) (rest : List (Option Octant)) :
    childrenInvB nl lv (c :: rest) = (optInv nl lv c && childrenInvB nl lv rest) := by
  cases c with
  | none => rw [childrenInvB, optInv, Bool.true_and]
  | some o => rw [childrenInvB, optInv]

theorem childNumSum_cons (c : Option Octant) (rest : List (Option Octant)) :
    childNumSum (c :: rest) = optNum c + childNumSum rest := by
  rw [childNumSum, List.map_cons, List.sum_cons, childNumSum]

theorem nwpChildren_path_ne_nil :
    ∀ (cs : List (Option Octant)) (j : Nat) (m : NodeId),
      (m, ([] : List Nat)) ∈ nodesWithPathsChildren j cs → False := by
  intro cs
  induction cs with
  | nil => intro j m h; simp [nodesWithPathsChildren] at h
  | cons c rest ih =>
      intro j m h
      rw [nwpChildren_cons] at h
      rcases List.mem_append.mp h with h1 | h2
      · cases c with
        | none => simp [optEntries] at h1
        | some o =>
            rw [optEntries] at h1
            obtain ⟨q, _, hq⟩ := List.mem_map.mp h1
            exact List.cons_ne_nil _ _ (congrArg Prod.snd hq)
      · exact ih (j + 1) m h2

theorem nwpChildren_path_cons :
    ∀ (cs : List (Option Octant)) (j m i : Nat) (q : List Nat),
      (m, i :: q) ∈ nodesWithPathsChildren j cs →
      j ≤ i ∧ i - j < cs.length ∧
        ∃ c, cs.getD (i - j) none = some c ∧ (m, q) ∈ c.nodesWithPaths := by
  intro cs
  induction cs with
  | nil => intro j m i q h; simp [nodesWithPathsChildren] at h
  | cons c rest ih =>
      intro j m i q h
      rw [nwpChildren_cons] at h
      rcases List.mem_append.mp h with h1 | h2
      · cases c with
        | none => simp [optEntries] at h1
        | some o =>
            rw [optEntries] at h1
            obtain ⟨qq, hqq, hq⟩ := List.mem_map.mp h1
            have hm : qq.1 = m := congrArg Prod.fst hq
            have hij : j = i ∧ qq.2 = q := by
              have := congrArg Prod.snd hq
              simp at this
              exact this
            refine ⟨hij.1.le, ?_, o, ?_, ?_⟩
            · rw [hij.1, Nat.sub_self]
              simp
            · rw [hij.1, Nat.sub_self]
              rfl
            · rw [← hm, ← hij.2]
              exact hqq
      · obtain ⟨hle, hlen, c', hget, hmem⟩ := ih (j + 1) m i q h2
        have hji : j ≤ i := le_trans (Nat.le_succ j) hle
        have harith : i - j = (i - (j + 1)) + 1 := by omega
        refine ⟨hji, ?_, c', ?_, hmem⟩
        · rw [harith, List.length_cons]
          omega
        · rw [harith, List.getD_cons_succ]
          exact hget

theorem mem_nwpChildren_intro :
    ∀ (cs : List (Option Octant)) (j k : Nat) (c : Octant),
      cs.getD k none = some c → k < cs.length →
      ∀ (m : NodeId) (q : List Nat), (m, q) ∈ c.nodesWithPaths →
        (m, (j + k) :: q) ∈ nodesWithPathsChildren j cs := by
  intro cs
  induction cs with
  | nil => intro j k c hget hk; simp at hk
  | cons c0 rest ih =>
      intro j k c hget hk m q hmem
      rw [nwpChildren_cons]
      cases k with
      | zero =>
          rw [List.getD_cons_zero] at hget
          rw [hget]
          apply List.mem_append.mpr
          left
          rw [optEntries, Nat.add_zero]
          exact List.mem_map.mpr ⟨(m, q), hmem, rfl⟩
      | succ k' =>
          rw [List.getD_cons_succ] at hget
          apply List.mem_append.mpr
          right
          have := ih (j + 1) k' c hget (by simpa using hk) m q hmem
          have harith : j + (k' + 1) = (j + 1) + k' := by omega
          rw [harith]
          exact this

theorem keys_child_subset :
    ∀ (cs : List (Option Octant)) (j : Nat) (o : Octant), some o ∈ cs →
      ∀ x, x ∈ o.allNodes → x ∈ (nodesWithPathsChildren j cs).map Prod.fst := by
  intro cs
  induction cs with
  | nil => intro j o ho; simp at ho
  | cons c rest ih =>
      intro j o ho x hx
      rw [nwpChildren_cons, List.map_append]
      rcases List.mem_cons.mp ho with he | hrest
      · apply List.mem_append.mpr
        left
        rw [← he, optEntries]
        rw [Octant.allNodes] at hx
        obtain ⟨q, hq, hqx⟩ := List.mem_map.mp hx
        apply List.mem_map.mpr
        refine ⟨(q.1, j :: q.2), List.mem_map.mpr ⟨q, hq, rfl⟩, hqx⟩
      · exact List.mem_append.mpr (Or.inr (ih (j + 1) o hrest x hx))

theorem map_pair_filter (ns : List NodeId) (n : NodeId) :
    (ns.map (fun x => (x, ([] : List Nat)))).filter (fun q => q.1 != n) =
      (ns.filter (fun x => x != n)).map (fun x => (x, ([] : List Nat))) := by
  induction ns with
  | nil => rfl
  | cons a t ih =>
      rw [List.map_cons, List.filter_cons, List.filter_cons]
      by_cases h : (a != n) = true
      · rw [if_pos h, if_pos h, List.map_cons, ih]
      · rw [if_neg h, if_neg h, ih]

theorem filter_prefix_map (l : List (NodeId × List Nat)) (i : Nat) (n : NodeId) :
    (l.map (fun q => (q.1, i :: q.2))).filter (fun q => q.1 != n) =
      (l.filter (fun q => q.1 != n)).map (fun q => (q.1, i :: q.2)) := by
  induction l with
  | nil => rfl
  | cons a t ih =>
      rw [List.map_cons, List.filter_cons, List.filter_cons]
      by_cases h : (a.1 != n) = true
      · rw [if_pos h, if_pos h, List.map_cons, ih]
      · rw [if_neg h, if_neg h, ih]

theorem filter_eq_self_of_not_mem_keys (l : List (NodeId × List Nat)) (n : NodeId)
    (h : n ∉ l.map Prod.fst) : l.filter (fun q => q.1 != n) = l := by
  induction l with
  | nil => rfl
  | cons a t ih =>
      rw [List.map_cons] at h
      have h1 : a.1 ≠ n := fun he => h (List.mem_cons.mpr (Or.inl he.symm))
      have h2 : n ∉ t.map Prod.fst := fun hm => h (List.mem_cons.mpr (Or.inr hm))
      rw [List.filter_cons, if_pos (by simpa using h1), ih h2]

theorem nwpChildren_set_ctx :
    ∀ (cs : List (Option Octant)) (i j : Nat), i < cs.length →
      ∃ A B, nodesWithPathsChildren j cs = A ++ (optEntries (j + i) (cs.getD i none) ++ B) ∧
        ∀ c', nodesWithPathsChildren j (cs.set i c') = A ++ (optEntries (j + i) c' ++ B) := by
  intro cs
  induction cs with
  | nil => intro i j h; simp at h
  | cons c rest ih =>
      intro i j hi
      cases i with
      | zero =>
          refine ⟨[], nodesWithPathsChildren (j + 1) rest, ?_, ?_⟩
          · rw [nwpChildren_cons, List.nil_append, List.getD_cons_zero]
            simp
          · intro c'
            rw [List.set_cons_zero, nwpChildren_cons, List.nil_append]
            simp
      | succ k =>
          obtain ⟨A, B, h1, h2⟩ := ih k (j + 1) (by simpa using hi)
          have harith : j + (k + 1) = (j + 1) + k := by omega
          refine ⟨optEntries j c ++ A, B, ?_, ?_⟩
          · rw [nwpChildren_cons, h1, List.getD_cons_succ, harith, List.append_assoc]
          · intro c'
            rw [List.set_cons_succ, nwpChildren_cons, h2 c', harith, List.append_assoc]

theorem childNumSum_set_ctx :
    ∀ (cs : List (Option Octant)) (i : Nat), i < cs.length →
      ∃ a b, childNumSum cs = a + optNum (cs.getD i none) + b ∧
        ∀ c', childNumSum (cs.set i c') = a + optNum c' + b := by
  intro cs
  induction cs with
  | nil => intro i h; simp at h
  | cons c rest ih =>
      intro i hi
      cases i with
      | zero =>
          refine ⟨0, childNumSum rest, ?_, ?_⟩
          · rw [childNumSum_cons, List.getD_cons_zero]
            omega
          · intro c'
            rw [List.set_cons_zero, childNumSum_cons]
            omega
      | succ k =>
          obtain ⟨a, b, h1, h2⟩ := ih k (by simpa using hi)
          refine ⟨optNum c + a, b, ?_, ?_⟩
          · rw [childNumSum_cons, h1, List.getD_cons_succ]
            omega
          · intro c'
            rw [List.set_cons_succ, childNumSum_cons, h2 c']
            omega

theorem childrenInvB_set_ctx (nl lv : Nat) :
    ∀ (cs : List (Option Octant)) (i : Nat), i < cs.length →
      ∃ P Q : Bool,
        childrenInvB nl lv cs = (P && (optInv nl lv (cs.getD i none) && Q)) ∧
        ∀ c', childrenInvB nl lv (cs.set i c') = (P && (optInv nl lv c' && Q)) := by
  intro cs
  induction cs with
  | nil => intro i h; simp at h
  | cons c rest ih =>
      intro i hi
      cases i with
      | zero =>
          refine ⟨true, childrenInvB nl lv rest, ?_, ?_⟩
          · rw [childrenInvB_cons, List.getD_cons_zero, Bool.true_and]
          · intro c'
            rw [List.set_cons_zero, childrenInvB_cons, Bool.true_and]
      | succ k =>
          obtain ⟨P, Q, h1, h2⟩ := ih k (by simpa using hi)
          refine ⟨optInv nl lv c && P, Q, ?_, ?_⟩
          · rw [childrenInvB_cons, h1, List.getD_cons_succ, Bool.and_assoc]
          · intro c'
            rw [List.set_cons_succ, childrenInvB_cons, h2 c', Bool.and_assoc]

theorem invB_mk_iff (nl : Nat) (cb wb : BoundingBox) (ce hs : Vector3) (lv : Nat)
    (ns : List NodeId) (num : Nat) (cs : List (Option Octant)) :
    Octant.InvB nl (.mk cb wb ce hs lv ns num cs) = true ↔
      (num = ns.length + childNumSum cs ∧ cs.length = 8 ∧ lv ≤ nl ∧
        childrenInvB nl lv cs = true) := by
  rw [Octant.InvB]
  simp [Bool.and_eq_true, and_assoc]

theorem optInv_some_iff (nl lv : Nat) (o : Octant) :
    optInv nl lv (some o) = true ↔
      (o.level = lv + 1 ∧ 1 ≤ o.numNodes ∧ o.InvB nl = true) := by
  rw [optInv]
  simp [Bool.and_eq_true, and_assoc]

theorem childrenInvB_getD (nl lv : Nat) :
    ∀ (cs : List (Option Octant)) (i : Nat), childrenInvB nl lv cs = true →
      ∀ c, cs.getD i none = some c →
        c.level = lv + 1 ∧ 1 ≤ c.numNodes ∧ c.InvB nl = true := by
  intro cs
  induction cs with
  | nil => intro i hinv c hget; simp at hget
  | cons c0 rest ih =>
      intro i hinv c hget
      rw [childrenInvB_cons, Bool.and_eq_true] at hinv
      cases i with
      | zero =>
          rw [List.getD_cons_zero] at hget
          rw [hget] at hinv
          exact (optInv_some_iff nl lv c).mp hinv.1
      | succ k =>
          rw [List.getD_cons_succ] at hget
          exact ih k hinv.2 c hget

theorem childNumSum_zero_all_none (nl lv : Nat) :
    ∀ cs, childrenInvB nl lv cs = true → childNumSum cs = 0 →
      cs.all Option.isNone = true := by
  intro cs
  induction cs with
  | nil => intro _ _; rfl
  | cons c rest ih =>
      intro hinv hsum
      rw [childrenInvB_cons, Bool.and_eq_true] at hinv
      rw [childNumSum_cons] at hsum
      cases c with
      | none =>
          rw [List.all_cons]
          exact ih hinv.2 (by omega)
      | some o =>
          obtain ⟨_, hn, _⟩ := (optInv_some_iff nl lv o).mp hinv.1
          rw [optNum] at hsum
          omega

theorem nwpChildren_all_none :
    ∀ (cs : List (Option Octant)) (j : Nat), cs.all Option.isNone = true →
      nodesWithPathsChildren j cs = [] := by
  intro cs
  induction cs with
  | nil => intro j _; rfl
  | cons c rest ih =>
      intro j hall
      rw [List.all_cons, Bool.and_eq_true] at hall
      cases c with
      | none => rw [nodesWithPathsChildren]; exact ih (j + 1) hall.2
      | some o => simp [Option.isNone] at hall

theorem invB_empty (nl : Nat) (o : Octant) (hinv : o.InvB nl = true) (h : o.numNodes = 0) :
    o.nodes = [] ∧ o.children.all Option.isNone = true ∧ o.nodesWithPaths = [] := by
  obtain ⟨cb, wb, ce, hs, lv, ns, num, cs⟩ := o
  rw [invB_mk_iff] at hinv
  rw [Octant.numNodes_mk] at h
  obtain ⟨hcount, _, _, hch⟩ := hinv
  have hns : ns = [] := by
    have : ns.length = 0 := by omega
    exact List.eq_nil_of_length_eq_zero this
  have hsum : childNumSum cs = 0 := by omega
  have hall := childNumSum_zero_all_none nl lv cs hch hsum
  refine ⟨by rw [Octant.nodes_mk, hns], by rw [Octant.children_mk]; exact hall, ?_⟩
  rw [Octant.nodesWithPaths, hns, List.map_nil, List.nil_append]
  exact nwpChildren_all_none cs 0 hall

theorem childrenInvB_replicate (nl lv : Nat) :
    ∀ k, childrenInvB nl lv (List.replicate k none) = true := by
  intro k
  induction k with
  | zero => rfl
  | succ k ih => rw [List.replicate_succ, childrenInvB_cons, ih, optInv, Bool.true_and]

theorem childNumSum_replicate : ∀ k, childNumSum (List.replicate k none) = 0 := by
  intro k
  induction k with
  | zero => rfl
  | succ k ih => rw [List.replicate_succ, childNumSum_cons, ih, optNum]

theorem nwpChildren_replicate :
    ∀ (k j : Nat), nodesWithPathsChildren j (List.replicate k none) = [] := by
  intro k
  induction k with
  | zero => intro j; rfl
  | succ k ih => intro j; rw [List.replicate_succ, nodesWithPathsChildren]; exact ih (j + 1)

theorem initialize_fields (bb : BoundingBox) (lv : Nat) :
    (Octant.Initialize bb lv).level = lv ∧ (Octant.Initialize bb lv).numNodes = 0 ∧
      (Octant.Initialize bb lv).nodes = [] ∧
      (Octant.Initialize bb lv).children = List.replicate 8 none ∧
      (Octant.Initialize bb lv).nodesWithPaths = [] := by
  refine ⟨rfl, rfl, rfl, rfl, ?_⟩
  rw [Octant.Initialize, Octant.nodesWithPaths, List.map_nil, List.nil_append]
  exact nwpChildren_replicate 8 0

theorem initialize_invB (nl lv : Nat) (bb : BoundingBox) (hlv : lv ≤ nl) :
    (Octant.Initialize bb lv).InvB nl = true := by
  rw [Octant.Initialize, invB_mk_iff]
  refine ⟨?_, by simp, hlv, childrenInvB_replicate nl lv 8⟩
  rw [childNumSum_replicate]
  rfl

theorem childrenInvB_countOk (nl lv : Nat) :
    ∀ cs : List (Option Octant),
      (∀ o : Octant, some o ∈ cs → o.InvB nl = true → o.CountOk = true) →
      childrenInvB nl lv cs = true → childrenCountOk cs = true := by
  intro cs
  induction cs with
  | nil => intro _ _; rfl
  | cons c rest ih =>
      intro hmem hinv
      rw [childrenInvB_cons, Bool.and_eq_true] at hinv
      cases c with
      | none =>
          rw [childrenCountOk]
          exact ih (fun o ho => hmem o (List.mem_cons_of_mem _ ho)) hinv.2
      | some o =>
          rw [childrenCountOk, Bool.and_eq_true]
          obtain ⟨_, _, hio⟩ := (optInv_some_iff nl lv o).mp hinv.1
          exact ⟨hmem o (List.mem_cons_self _ _) hio,
            ih (fun o' ho' => hmem o' (List.mem_cons_of_mem _ ho')) hinv.2⟩

theorem invB_countOk (nl : Nat) : ∀ o : Octant, o.InvB nl = true → o.CountOk = true := by
  apply Octant.indOn
  intro cb wb ce hs lv ns num cs ih hinv
  rw [invB_mk_iff] at hinv
  rw [Octant.CountOk, Bool.and_eq_true]
  refine ⟨by simp [hinv.1], ?_⟩
  exact childrenInvB_countOk nl lv cs (fun o ho => ih o ho) hinv.2.2.2

theorem invB_octantAt (nl : Nat) :
    ∀ (p : List Nat) (o : Octant), o.InvB nl = true →
      ∀ o', Octant.octantAt p o = some o' →
        o'.InvB nl = true ∧ o'.level = o.level + p.length := by
  intro p
  induction p with
  | nil =>
      intro o hinv o' h
      rw [Octant.octantAt, Option.some_inj] at h
      rw [← h]
      exact ⟨hinv, by simp⟩
  | cons i rest ih =>
      intro o hinv o' h
      rw [Octant.octantAt] at h
      cases hg : o.getChild i with
      | none => rw [hg] at h; exact absurd h (by simp)
      | some c =>
          rw [hg] at h
          obtain ⟨cb, wb, ce, hs, lv, ns, num, cs⟩ := o
          rw [invB_mk_iff] at hinv
          rw [Octant.getChild, Octant.children_mk] at hg
          obtain ⟨hlev, _, hic⟩ := childrenInvB_getD nl lv cs i hinv.2.2.2 c hg
          obtain ⟨h1, h2⟩ := ih c hic o' h
          refine ⟨h1, ?_⟩
          rw [h2, hlev, Octant.level_mk, List.length_cons]
          omega

theorem invB_parts (nl : Nat) (o : Octant) (h : o.InvB nl = true) :
    o.numNodes = o.nodes.length + childNumSum o.children ∧ o.children.length = 8 ∧
      o.level ≤ nl ∧ childrenInvB nl o.level o.children = true := by
  obtain ⟨cb, wb, ce, hs, lv, ns, num, cs⟩ := o
  rw [invB_mk_iff] at h
  simpa using h

theorem pushNode_invB (nl : Nat) (o : Octant) (n : NodeId) (h : o.InvB nl = true) :
    (o.pushNode n).InvB nl = true := by
  obtain ⟨cb, wb, ce, hs, lv, ns, num, cs⟩ := o
  rw [invB_mk_iff] at h
  rw [Octant.pushNode, invB_mk_iff]
  refine ⟨?_, h.2.1, h.2.2.1, h.2.2.2⟩
  rw [List.length_append]
  simp only [List.length_singleton]
  omega

theorem insertHere_spec (nl : Nat) (o : Octant) (n : NodeId) :
    (o.pushNode n).numNodes = o.numNodes + 1 ∧ (o.pushNode n).level = o.level ∧
    (o.pushNode n).cullingBox = o.cullingBox ∧
    (o.InvB nl = true → (o.pushNode n).InvB nl = true) ∧
    (∃ A B, o.nodesWithPaths = A ++ B ∧
      (o.pushNode n).nodesWithPaths = A ++ ((n, ([] : List Nat)) :: B)) ∧
    Octant.octantAt [] (o.pushNode n) = some (o.pushNode n) ∧ n ∈ (o.pushNode n).nodes ∧
    ∀ box bs, (o.pushNode n).FitBoundingBox box bs = o.FitBoundingBox box bs := by
  obtain ⟨cb, wb, ce, hs, lv, ns, num, cs⟩ := o
  refine ⟨rfl, rfl, rfl, pushNode_invB nl _ n, ?_, rfl, ?_, fun box bs => rfl⟩
  · refine ⟨ns.map (fun x => (x, ([] : List Nat))), nodesWithPathsChildren 0 cs, ?_, ?_⟩
    · rw [Octant.nodesWithPaths]
    · rw [Octant.pushNode, Octant.nodesWithPaths, List.map_append, List.append_assoc]
      simp only [List.map_cons, List.map_nil, List.singleton_append]
  · rw [Octant.pushNode, Octant.nodes_mk]
    simp

theorem setChild_incNum_fields (o : Octant) (i : Nat) (c' : Option Octant) :
    ((o.setChild i c').incNumNodes).numNodes = o.numNodes + 1 ∧
    ((o.setChild i c').incNumNodes).level = o.level ∧
    ((o.setChild i c').incNumNodes).cullingBox = o.cullingBox ∧
    ((o.setChild i c').incNumNodes).nodes = o.nodes ∧
    ((o.setChild i c').incNumNodes).children = o.children.set i c' := by
  obtain ⟨cb, wb, ce, hs, lv, ns, num, cs⟩ := o
  exact ⟨rfl, rfl, rfl, rfl, rfl⟩

theorem setChild_incNum_invB (nl : Nat) (o : Octant) (i : Nat) (c' : Octant)
    (hinv : o.InvB nl = true) (hi : i < o.children.length)
    (hlev : c'.level = o.level + 1) (hnum : 1 ≤ c'.numNodes) (hcinv : c'.InvB nl = true)
    (hdelta : c'.numNodes = optNum (o.children.getD i none) + 1) :
    ((o.setChild i (some c')).incNumNodes).InvB nl = true := by
  obtain ⟨cb, wb, ce, hs, lv, ns, num, cs⟩ := o
  simp only [Octant.children_mk] at hi hdelta
  simp only [Octant.level_mk] at hlev
  rw [invB_mk_iff] at hinv
  rw [Octant.setChild, Octant.incNumNodes, invB_mk_iff]
  obtain ⟨hcount, hlen, hnl, hchinv⟩ := hinv
  obtain ⟨a, b, hsum1, hsum2⟩ := childNumSum_set_ctx cs i hi
  obtain ⟨P, Q, hin1, hin2⟩ := childrenInvB_set_ctx nl lv cs i hi
  refine ⟨?_, by rw [List.length_set]; exact hlen, hnl, ?_⟩
  · rw [hsum2 (some c')]
    rw [hsum1] at hcount
    rw [optNum] at *
    omega
  · rw [hin2 (some c')]
    rw [hin1] at hchinv
    simp only [Bool.and_eq_true] at hchinv ⊢
    refine ⟨hchinv.1, ?_, hchinv.2.2⟩
    rw [optInv_some_iff]
    exact ⟨hlev, hnum, hcinv⟩

theorem setChild_incNum_nwp (o : Octant) (i : Nat) (c' : Option Octant)
    (hi : i < o.children.length) :
    ∃ A2 B2,
      o.nodesWithPaths =
        (o.nodes.map (fun x => (x, ([] : List Nat)))) ++
          (A2 ++ (optEntries i (o.children.getD i none) ++ B2)) ∧
      ((o.setChild i c').incNumNodes).nodesWithPaths =
        (o.nodes.map (fun x => (x, ([] : List Nat)))) ++ (A2 ++ (optEntries i c' ++ B2)) := by
  obtain ⟨cb, wb, ce, hs, lv, ns, num, cs⟩ := o
  simp only [Octant.children_mk] at hi ⊢
  simp only [Octant.nodes_mk]
  obtain ⟨A2, B2, h1, h2⟩ := nwpChildren_set_ctx cs i 0 hi
  refine ⟨A2, B2, ?_, ?_⟩
  · rw [Octant.nodesWithPaths, h1]
    simp
  · rw [Octant.setChild, Octant.incNumNodes, Octant.nodesWithPaths, h2 c']
    simp

theorem insertDescent_spec (n : NodeId) (bc : Vector3) (box : BoundingBox) (bs : Vector3)
    (nl : Nat) :
    ∀ (fuel : Nat) (o : Octant), o.InvB nl = true → o.level + fuel ≤ nl →
      (Octree.insertDescent n bc box bs fuel o).1.numNodes = o.numNodes + 1 ∧
      (Octree.insertDescent n bc box bs fuel o).1.level = o.level ∧
      (Octree.insertDescent n bc box bs fuel o).1.cullingBox = o.cullingBox ∧
      (Octree.insertDescent n bc box bs fuel o).1.InvB nl = true ∧
      (∃ A B, o.nodesWithPaths = A ++ B ∧
        (Octree.insertDescent n bc box bs fuel o).1.nodesWithPaths =
          A ++ ((n, (Octree.insertDescent n bc box bs fuel o).2) :: B)) ∧
      (∃ oF, Octant.octantAt (Octree.insertDescent n bc box bs fuel o).2
          (Octree.insertDescent n bc box bs fuel o).1 = some oF ∧ n ∈ oF.nodes ∧
        (oF.FitBoundingBox box bs = true ∨
          (Octree.insertDescent n bc box bs fuel o).2.length = fuel)) := by
  intro fuel
  induction fuel with
  | zero =>
      intro o hinv hfuel
      rw [Octree.insertDescent]
      obtain ⟨h1, h2, h3, h4, h5, h6, h7, _⟩ := insertHere_spec nl o n
      exact ⟨h1, h2, h3, h4 hinv, h5, (o.pushNode n), h6, h7, Or.inr rfl⟩
  | succ fuel ih =>
      intro o hinv hfuel
      simp only [Octree.insertDescent]
      by_cases hfit : o.FitBoundingBox box bs = true
      · rw [if_pos hfit]
        obtain ⟨h1, h2, h3, h4, h5, h6, h7, h8⟩ := insertHere_spec nl o n
        exact ⟨h1, h2, h3, h4 hinv, h5, (o.pushNode n), h6, h7,
          Or.inl (by rw [h8 box bs]; exact hfit)⟩
      · rw [if_neg hfit]
        obtain ⟨hcount, hlen8, hlevnl, hchinv⟩ := invB_parts nl o hinv
        have hidx : o.ChildIndex bc < 8 := childIndex_lt8 o bc
        have hilen : o.ChildIndex bc < o.children.length := by rw [hlen8]; exact hidx
        cases hg : o.getChild (o.ChildIndex bc) with
        | some c =>
            simp only [hg]
            have hgd : o.children.getD (o.ChildIndex bc) none = some c := hg
            obtain ⟨hclev, hcnum, hcinv⟩ :=
              childrenInvB_getD nl o.level o.children (o.ChildIndex bc) hchinv c hgd
            have hcfuel : c.level + fuel ≤ nl := by rw [hclev]; omega
            obtain ⟨i1, i2, i3, i4, ⟨A', B', iAB1, iAB2⟩, oF, iAt, iMem, iFit⟩ :=
              ih c hcinv hcfuel
            obtain ⟨f1, f2, f3, f4, f5⟩ :=
              setChild_incNum_fields o (o.ChildIndex bc)
                (some (Octree.insertDescent n bc box bs fuel c).1)
            refine ⟨by rw [f1], by rw [f2], by rw [f3], ?_, ?_, ?_⟩
            · exact setChild_incNum_invB nl o (o.ChildIndex bc) _ hinv hilen
                (by rw [i2, hclev]) (by rw [i1]; omega) i4
                (by rw [i1, hgd, optNum])
            · obtain ⟨A2, B2, w1, w2⟩ :=
                setChild_incNum_nwp o (o.ChildIndex bc)
                  (some (Octree.insertDescent n bc box bs fuel c).1) hilen
              rw [hgd] at w1
              simp only [optEntries] at w1 w2
              rw [iAB1] at w1
              rw [iAB2] at w2
              rw [List.map_append] at w1 w2
              rw [List.map_cons] at w2
              refine ⟨(o.nodes.map (fun x => (x, ([] : List Nat)))) ++
                  (A2 ++ A'.map (fun q => (q.1, o.ChildIndex bc :: q.2))),
                B'.map (fun q => (q.1, o.ChildIndex bc :: q.2)) ++ B2, ?_, ?_⟩
              · rw [w1]
                simp [List.append_assoc]
              · rw [w2]
                simp [List.append_assoc]
            · refine ⟨oF, ?_, iMem, ?_⟩
              · rw [Octant.octantAt, Octant.getChild, f5, getD_set_self _ _ _ hilen]
                exact iAt
              · rcases iFit with hf | hl
                · exact Or.inl hf
                · exact Or.inr (by rw [List.length_cons, hl])
        | none =>
            simp only [hg]
            have hgd : o.children.getD (o.ChildIndex bc) none = none := hg
            have hfinv :
                (Octant.Initialize (o.childBoundingBox (o.ChildIndex bc))
                  (o.level + 1)).InvB nl = true :=
              initialize_invB nl (o.level + 1) _ (by omega)
            have hffuel :
                (Octant.Initialize (o.childBoundingBox (o.ChildIndex bc))
                  (o.level + 1)).level + fuel ≤ nl := by
              have : (Octant.Initialize (o.childBoundingBox (o.ChildIndex bc))
                  (o.level + 1)).level = o.level + 1 := rfl
              rw [this]
              omega
            obtain ⟨i1, i2, i3, i4, ⟨A', B', iAB1, iAB2⟩, oF, iAt, iMem, iFit⟩ :=
              ih _ hfinv hffuel
            have hfnwp :
                (Octant.Initialize (o.childBoundingBox (o.ChildIndex bc))
                  (o.level + 1)).nodesWithPaths = [] :=
              (initialize_fields _ _).2.2.2.2
            rw [hfnwp] at iAB1
            obtain ⟨hA', hB'⟩ := List.append_eq_nil.mp iAB1.symm
            rw [hA', hB', List.nil_append] at iAB2
            obtain ⟨f1, f2, f3, f4, f5⟩ :=
              setChild_incNum_fields o (o.ChildIndex bc)
                (some (Octree.insertDescent n bc box bs fuel
                  (Octant.Initialize (o.childBoundingBox (o.ChildIndex bc)) (o.level + 1))).1)
            refine ⟨by rw [f1], by rw [f2], by rw [f3], ?_, ?_, ?_⟩
            · refine setChild_incNum_invB nl o (o.ChildIndex bc) _ hinv hilen ?_ ?_ i4 ?_
              · rw [i2]
                rfl
              · rw [i1]
                omega
              · rw [i1, hgd, optNum]
                rfl
            · obtain ⟨A2, B2, w1, w2⟩ :=
                setChild_incNum_nwp o (o.ChildIndex bc)
                  (some (Octree.insertDescent n bc box bs fuel
                    (Octant.Initialize (o.childBoundingBox (o.ChildIndex bc))
                      (o.level + 1))).1) hilen
              rw [hgd] at w1
              simp only [optEntries] at w1 w2
              rw [iAB2] at w2
              rw [List.map_cons, List.map_nil] at w2
              refine ⟨(o.nodes.map (fun x => (x, ([] : List Nat)))) ++ A2, B2, ?_, ?_⟩
              · rw [w1]
                simp [List.append_assoc]
              · rw [w2]
                simp [List.append_assoc]
            · refine ⟨oF, ?_, iMem, ?_⟩
              · rw [Octant.octantAt, Octant.getChild, f5, getD_set_self _ _ _ hilen]
                exact iAt
              · rcases iFit with hf | hl
                · exact Or.inl hf
                · exact Or.inr (by rw [List.length_cons, hl])

theorem map_fst_pairs (ns : List NodeId) :
    (ns.map (fun x => (x, ([] : List Nat)))).map Prod.fst = ns := by
  simp [List.map_map, Function.comp_def]

theorem filter_bne_eq_self (t : List NodeId) (n : NodeId) (h : n ∉ t) :
    t.filter (fun x => x != n) = t := by
  induction t with
  | nil => rfl
  | cons a rest ih =>
      have ha : a ≠ n := fun he => h (List.mem_cons.mpr (Or.inl he.symm))
      have hrest : n ∉ rest := fun hm => h (List.mem_cons.mpr (Or.inr hm))
      rw [List.filter_cons, if_pos (by simpa using ha), ih hrest]

theorem erase_eq_filter_bne (ns : List NodeId) (n : NodeId) (h : ns.Nodup) :
    ns.erase n = ns.filter (fun x => x != n) := by
  induction ns with
  | nil => rfl
  | cons a rest ih =>
      rw [List.nodup_cons] at h
      by_cases ha : a = n
      · rw [ha, List.erase_cons_head, List.filter_cons,
          if_neg (by simp), filter_bne_eq_self rest n (ha ▸ h.1)]
      · rw [List.erase_cons_tail (by simpa using ha), List.filter_cons,
          if_pos (by simpa using ha), ih h.2]

theorem nodup_middle_parts (l1 l2 l3 : List NodeId) (h : (l1 ++ (l2 ++ l3)).Nodup) :
    l1.Nodup ∧ l2.Nodup ∧ l3.Nodup ∧ (∀ x ∈ l2, x ∉ l1 ∧ x ∉ l3) := by
  rw [List.nodup_append] at h
  obtain ⟨h1, h23, hd⟩ := h
  rw [List.nodup_append] at h23
  obtain ⟨h2, h3, hd23⟩ := h23
  exact ⟨h1, h2, h3, fun x hx =>
    ⟨fun hx1 => hd hx1 (List.mem_append.mpr (Or.inl hx)), fun hx3 => hd23 hx hx3⟩⟩

theorem mem_nwp_nil_path (o : Octant) (n : NodeId)
    (h : (n, ([] : List Nat)) ∈ o.nodesWithPaths) : n ∈ o.nodes := by
  obtain ⟨cb, wb, ce, hs, lv, ns, num, cs⟩ := o
  rw [Octant.nodesWithPaths] at h
  rcases List.mem_append.mp h with h1 | h2
  · obtain ⟨x, hx, he⟩ := List.mem_map.mp h1
    have : x = n := congrArg Prod.fst he
    rw [Octant.nodes_mk, ← this]
    exact hx
  · exact absurd h2 (fun hc => nwpChildren_path_ne_nil cs 0 n hc)

theorem mem_nwp_cons_path (o : Octant) (n i : Nat) (rest : List Nat)
    (h : (n, i :: rest) ∈ o.nodesWithPaths) :
    i < o.children.length ∧
      ∃ c, o.children.getD i none = some c ∧ (n, rest) ∈ c.nodesWithPaths := by
  obtain ⟨cb, wb, ce, hs, lv, ns, num, cs⟩ := o
  rw [Octant.nodesWithPaths] at h
  rcases List.mem_append.mp h with h1 | h2
  · obtain ⟨x, _, he⟩ := List.mem_map.mp h1
    have : ([] : List Nat) = i :: rest := congrArg Prod.snd he
    exact absurd this.symm (List.cons_ne_nil _ _)
  · obtain ⟨_, hlen, c, hget, hmem⟩ := nwpChildren_path_cons cs 0 n i rest h2
    rw [Nat.sub_zero] at hlen hget
    exact ⟨by rw [Octant.children_mk]; exact hlen, c, by rw [Octant.children_mk]; exact hget, hmem⟩

theorem nodup_four_parts (l1 l2 l3 l4 : List NodeId)
    (h : (l1 ++ (l2 ++ (l3 ++ l4))).Nodup) :
    l3.Nodup ∧ ∀ x ∈ l3, x ∉ l1 ∧ x ∉ l2 ∧ x ∉ l4 := by
  rw [List.nodup_append] at h
  obtain ⟨h1, h234, hd1⟩ := h
  rw [List.nodup_append] at h234
  obtain ⟨h2, h34, hd2⟩ := h234
  rw [List.nodup_append] at h34
  obtain ⟨h3, h4, hd3⟩ := h34
  refine ⟨h3, fun x hx => ⟨?_, ?_, fun h4x => hd3 hx h4x⟩⟩
  · intro h1x
    exact hd1 h1x (List.mem_append.mpr (Or.inr (List.mem_append.mpr (Or.inl hx))))
  · intro h2x
    exact hd2 h2x (List.mem_append.mpr (Or.inl hx))

theorem removeAtPath_spec (n : NodeId) (nl : Nat) :
    ∀ (p : List Nat) (o : Octant), o.InvB nl = true →
      o.allNodes.Nodup → (n, p) ∈ o.nodesWithPaths →
      (Octree.removeAtPath n p o).numNodes + 1 = o.numNodes ∧
      (Octree.removeAtPath n p o).level = o.level ∧
      (Octree.removeAtPath n p o).cullingBox = o.cullingBox ∧
      (Octree.removeAtPath n p o).InvB nl = true ∧
      (Octree.removeAtPath n p o).nodesWithPaths =
        o.nodesWithPaths.filter (fun q => q.1 != n) := by
  intro p
  induction p with
  | nil =>
      intro o hinv hnd hmem
      have hn : n ∈ o.nodes := mem_nwp_nil_path o n hmem
      obtain ⟨cb, wb, ce, hs, lv, ns, num, cs⟩ := o
      rw [Octant.nodes_mk] at hn
      rw [invB_mk_iff] at hinv
      obtain ⟨hcount, hlen8, hlv, hchinv⟩ := hinv
      have hlenpos : 1 ≤ ns.length := List.length_pos.mpr (List.ne_nil_of_mem hn)
      rw [Octant.allNodes, Octant.nodesWithPaths, List.map_append, map_fst_pairs] at hnd
      rw [List.nodup_append] at hnd
      obtain ⟨hndns, _, hdisjns⟩ := hnd
      have hnch : n ∉ (nodesWithPathsChildren 0 cs).map Prod.fst := hdisjns hn
      rw [Octree.removeAtPath, Octant.eraseNodeHere]
      refine ⟨?_, rfl, rfl, ?_, ?_⟩
      · rw [Octant.numNodes_mk, Octant.numNodes_mk]
        omega
      · rw [invB_mk_iff]
        refine ⟨?_, hlen8, hlv, hchinv⟩
        rw [List.length_erase_of_mem hn]
        omega
      · rw [Octant.nodesWithPaths, Octant.nodesWithPaths, List.filter_append,
          erase_eq_filter_bne ns n hndns, map_pair_filter,
          filter_eq_self_of_not_mem_keys _ n hnch]
  | cons i rest ih =>
      intro o hinv hnd hmem
      obtain ⟨hilen, c, hgd, hmemc⟩ := mem_nwp_cons_path o n i rest hmem
      obtain ⟨cb, wb, ce, hs, lv, ns, num, cs⟩ := o
      rw [Octant.children_mk] at hilen hgd
      rw [invB_mk_iff] at hinv
      obtain ⟨hcount, hlen8, hlv, hchinv⟩ := hinv
      obtain ⟨hclev, hcnum1, hcinv⟩ := childrenInvB_getD nl lv cs i hchinv c hgd
      obtain ⟨A2, B2, wnw1, wnw2⟩ := nwpChildren_set_ctx cs i 0 hilen
      rw [Nat.zero_add] at wnw1 wnw2
      rw [hgd] at wnw1
      simp only [optEntries] at wnw1
      obtain ⟨a, b, ws1, ws2⟩ := childNumSum_set_ctx cs i hilen
      rw [hgd] at ws1
      simp only [optNum] at ws1
      obtain ⟨P, Q, wi1, wi2⟩ := childrenInvB_set_ctx nl lv cs i hilen
      rw [hgd] at wi1
      have hnwpo : Octant.nodesWithPaths (.mk cb wb ce hs lv ns num cs) =
          ns.map (fun x => (x, ([] : List Nat))) ++
            (A2 ++ (c.nodesWithPaths.map (fun q => (q.1, i :: q.2)) ++ B2)) := by
        rw [Octant.nodesWithPaths, wnw1]
      have hkeys : (ns ++ (A2.map Prod.fst ++
          (c.nodesWithPaths.map Prod.fst ++ B2.map Prod.fst))).Nodup := by
        rw [Octant.allNodes, hnwpo, List.map_append, List.map_append, List.map_append,
          map_fst_pairs, map_fst_map_cons] at hnd
        exact hnd
      obtain ⟨hcknd, hdisj⟩ := nodup_four_parts ns (A2.map Prod.fst)
        (c.nodesWithPaths.map Prod.fst) (B2.map Prod.fst) hkeys
      have hnkeysc : n ∈ c.nodesWithPaths.map Prod.fst :=
        List.mem_map.mpr ⟨(n, rest), hmemc, rfl⟩
      obtain ⟨hdns, hdA2, hdB2⟩ := hdisj n hnkeysc
      have hcnd : c.allNodes.Nodup := by rw [Octant.allNodes]; exact hcknd
      obtain ⟨r1, r2, r3, r4, r5⟩ := ih c hcinv hcnd hmemc
      have hckf : ((c.nodesWithPaths.map (fun q => (q.1, i :: q.2))).filter
          (fun q => q.1 != n)) =
          (Octree.removeAtPath n rest c).nodesWithPaths.map (fun q => (q.1, i :: q.2)) := by
        rw [filter_prefix_map, ← r5]
      rw [Octree.removeAtPath]
      simp only [Octant.getChild, Octant.children_mk, hgd]
      by_cases hz : (Octree.removeAtPath n rest c).numNodes = 0
      · obtain ⟨hzn, hza, hznwp⟩ := invB_empty nl _ r4 hz
        rw [if_pos (by rw [hz, hza]; rfl)]
        rw [Octant.setChild, Octant.decNumNodes]
        have h1 : num = ns.length + (a + c.numNodes + b) := by rw [hcount, ws1]
        refine ⟨?_, rfl, rfl, ?_, ?_⟩
        · rw [Octant.numNodes_mk, Octant.numNodes_mk]
          omega
        · rw [invB_mk_iff]
          refine ⟨?_, by rw [List.length_set]; exact hlen8, hlv, ?_⟩
          · rw [ws2 none]
            simp only [optNum]
            omega
          · rw [wi2 none]
            rw [wi1] at hchinv
            simp only [Bool.and_eq_true] at hchinv ⊢
            exact ⟨hchinv.1, by rw [optInv], hchinv.2.2⟩
        · rw [Octant.nodesWithPaths, wnw2 none]
          simp only [optEntries]
          rw [hnwpo]
          simp only [List.filter_append]
          rw [filter_eq_self_of_not_mem_keys _ n (by rw [map_fst_pairs]; exact hdns),
            filter_eq_self_of_not_mem_keys A2 n hdA2,
            filter_eq_self_of_not_mem_keys B2 n hdB2, hckf, hznwp, List.map_nil]
      · rw [if_neg (by simp [Bool.and_eq_true, hz])]
        rw [Octant.setChild, Octant.decNumNodes]
        have h1 : num = ns.length + (a + c.numNodes + b) := by rw [hcount, ws1]
        refine ⟨?_, rfl, rfl, ?_, ?_⟩
        · rw [Octant.numNodes_mk, Octant.numNodes_mk]
          omega
        · rw [invB_mk_iff]
          refine ⟨?_, by rw [List.length_set]; exact hlen8, hlv, ?_⟩
          · rw [ws2 (some (Octree.removeAtPath n rest c))]
            simp only [optNum]
            omega
          · rw [wi2 (some (Octree.removeAtPath n rest c))]
            rw [wi1] at hchinv
            simp only [Bool.and_eq_true] at hchinv ⊢
            refine ⟨hchinv.1, ?_, hchinv.2.2⟩
            rw [optInv_some_iff]
            exact ⟨by rw [r2, hclev], by omega, r4⟩
        · rw [Octant.nodesWithPaths, wnw2 (some (Octree.removeAtPath n rest c))]
          simp only [optEntries]
          rw [hnwpo]
          simp only [List.filter_append]
          rw [filter_eq_self_of_not_mem_keys _ n (by rw [map_fst_pairs]; exact hdns),
            filter_eq_self_of_not_mem_keys A2 n hdA2,
            filter_eq_self_of_not_mem_keys B2 n hdB2, hckf]

theorem mem_keys_of_mem_nodes (o : Octant) (n : NodeId) (h : n ∈ o.nodes) :
    n ∈ o.nodesWithPaths.map Prod.fst := by
  obtain ⟨cb, wb, ce, hs, lv, ns, num, cs⟩ := o
  rw [Octant.nodes_mk] at h
  rw [Octant.nodesWithPaths, List.map_append, map_fst_pairs]
  exact List.mem_append.mpr (Or.inl h)

theorem getD_some_mem (l : List (Option Octant)) (i : Nat) (c : Octant)
    (h : l.getD i none = some c) : some c ∈ l := by
  induction l generalizing i with
  | nil => simp at h
  | cons a rest ih =>
      cases i with
      | zero =>
          rw [List.getD_cons_zero] at h
          rw [h]
          exact List.mem_cons_self _ _
      | succ j =>
          rw [List.getD_cons_succ] at h
          exact List.mem_cons_of_mem _ (ih j h)

theorem not_mem_child_keys (cs : List (Option Octant)) (i : Nat) (c : Octant)
    (hgd : cs.getD i none = some c) (hi : i < cs.length) (n : NodeId)
    (h : n ∉ (nodesWithPathsChildren 0 cs).map Prod.fst) :
    n ∉ c.nodesWithPaths.map Prod.fst := by
  intro hc
  apply h
  exact keys_child_subset cs 0 c (getD_some_mem cs i c hgd) n
    (by rw [Octant.allNodes]; exact hc)

theorem removeAtPath_pushNode (o : Octant) (n : NodeId) (h : n ∉ o.nodes) :
    Octree.removeAtPath n [] (o.pushNode n) = o := by
  obtain ⟨cb, wb, ce, hs, lv, ns, num, cs⟩ := o
  rw [Octant.nodes_mk] at h
  rw [Octree.removeAtPath, Octant.pushNode, Octant.eraseNodeHere]
  have he : (ns ++ [n]).erase n = ns := by
    rw [List.erase_append_right _ h, List.erase_cons_head, List.append_nil]
  rw [he]
  simp

theorem replicate_all_none : (List.replicate 8 (none : Option Octant)).all Option.isNone = true :=
  rfl

theorem removeAtPath_insertDescent (n : NodeId) (bc : Vector3) (box : BoundingBox)
    (bs : Vector3) (nl : Nat) :
    ∀ (fuel : Nat) (o : Octant), o.InvB nl = true → o.level + fuel ≤ nl →
      n ∉ o.nodesWithPaths.map Prod.fst →
      Octree.removeAtPath n (Octree.insertDescent n bc box bs fuel o).2
        (Octree.insertDescent n bc box bs fuel o).1 = o := by
  intro fuel
  induction fuel with
  | zero =>
      intro o hinv hfuel hkeys
      rw [Octree.insertDescent]
      exact removeAtPath_pushNode o n (fun hc => hkeys (mem_keys_of_mem_nodes o n hc))
  | succ fuel ih =>
      intro o hinv hfuel hkeys
      simp only [Octree.insertDescent]
      by_cases hfit : o.FitBoundingBox box bs = true
      · rw [if_pos hfit]
        exact removeAtPath_pushNode o n (fun hc => hkeys (mem_keys_of_mem_nodes o n hc))
      · rw [if_neg hfit]
        obtain ⟨hcount, hlen8, hlevnl, hchinv⟩ := invB_parts nl o hinv
        have hidx : o.ChildIndex bc < 8 := childIndex_lt8 o bc
        have hilen : o.ChildIndex bc < o.children.length := by rw [hlen8]; exact hidx
        have hnch : n ∉ (nodesWithPathsChildren 0 o.children).map Prod.fst := by
          intro hc
          apply hkeys
          obtain ⟨cb, wb, ce, hs, lv, ns, num, cs⟩ := o
          rw [Octant.nodesWithPaths, List.map_append]
          exact List.mem_append.mpr (Or.inr (by
            rw [Octant.children_mk] at hc
            exact hc))
        cases hg : o.getChild (o.ChildIndex bc) with
        | some c =>
            simp only [hg]
            have hgd : o.children.getD (o.ChildIndex bc) none = some c := hg
            obtain ⟨hclev, hcnum1, hcinv⟩ :=
              childrenInvB_getD nl o.level o.children (o.ChildIndex bc)
                (by
                  obtain ⟨cb, wb, ce, hs, lv, ns, num, cs⟩ := o
                  exact hchinv) c hgd
            have hcfuel : c.level + fuel ≤ nl := by rw [hclev]; omega
            have hckeys : n ∉ c.nodesWithPaths.map Prod.fst := by
              apply not_mem_child_keys o.children (o.ChildIndex bc) c hgd hilen n
              intro hc
              exact hnch hc
            have hihc := ih c hcinv hcfuel hckeys
            obtain ⟨f1, f2, f3, f4, f5⟩ :=
              setChild_incNum_fields o (o.ChildIndex bc)
                (some (Octree.insertDescent n bc box bs fuel c).1)
            rw [Octree.removeAtPath]
            simp only [Octant.getChild, f5, getD_set_self _ _ _ hilen, hihc]
            rw [if_neg (by simp [Bool.and_eq_true]; omega)]
            obtain ⟨cb, wb, ce, hs, lv, ns, num, cs⟩ := o
            rw [Octant.setChild, Octant.incNumNodes, Octant.setChild, Octant.decNumNodes]
            rw [Octant.children_mk] at hgd hilen
            rw [set_set_same]
            conv_lhs => rw [← hgd]
            rw [set_getD_eq_self cs _ hilen]
            simp
        | none =>
            simp only [hg]
            have hgd : o.children.getD (o.ChildIndex bc) none = none := hg
            have hfinv :
                (Octant.Initialize (o.childBoundingBox (o.ChildIndex bc))
                  (o.level + 1)).InvB nl = true :=
              initialize_invB nl (o.level + 1) _ (by omega)
            have hffuel :
                (Octant.Initialize (o.childBoundingBox (o.ChildIndex bc))
                  (o.level + 1)).level + fuel ≤ nl := by
              have hflev : (Octant.Initialize (o.childBoundingBox (o.ChildIndex bc))
                  (o.level + 1)).level = o.level + 1 := rfl
              rw [hflev]
              omega
            have hfkeys : n ∉ (Octant.Initialize (o.childBoundingBox (o.ChildIndex bc))
                (o.level + 1)).nodesWithPaths.map Prod.fst := by
              rw [(initialize_fields _ _).2.2.2.2]
              simp
            have hihf := ih _ hfinv hffuel hfkeys
            obtain ⟨f1, f2, f3, f4, f5⟩ :=
              setChild_incNum_fields o (o.ChildIndex bc)
                (some (Octree.insertDescent n bc box bs fuel
                  (Octant.Initialize (o.childBoundingBox (o.ChildIndex bc)) (o.level + 1))).1)
            rw [Octree.removeAtPath]
            simp only [Octant.getChild, f5, getD_set_self _ _ _ hilen, hihf]
            rw [if_pos (by rw [(initialize_fields _ _).2.2.2.1]; rfl)]
            obtain ⟨cb, wb, ce, hs, lv, ns, num, cs⟩ := o
            rw [Octant.setChild, Octant.incNumNodes, Octant.setChild, Octant.decNumNodes]
            rw [Octant.children_mk] at hgd hilen
            rw [set_set_same]
            conv_lhs => rw [show (none : Option Octant) = cs.getD (Octant.ChildIndex
              (Octant.mk cb wb ce hs lv ns num cs) bc) none from hgd.symm]
            rw [set_getD_eq_self cs _ hilen]
            simp

theorem not_mem_pair_of_not_key (l : List (NodeId × List Nat)) (n : NodeId) (p : List Nat)
    (h : n ∉ l.map Prod.fst) : (n, p) ∉ l :=
  fun hc => h (List.mem_map.mpr ⟨(n, p), hc, rfl⟩)

theorem wf_initialState (bb : BoundingBox) (nl : Nat) (m : List (NodeId × List Nat))
    (hm : m = []) (q : List NodeId) :
    Octree.WF ⟨Octant.Initialize bb 0, nl, m, q⟩ := by
  subst hm
  refine ⟨initialize_invB nl 0 bb (Nat.zero_le nl), rfl, ?_, List.nodup_nil, ?_⟩
  · rw [(initialize_fields bb 0).2.2.2.2]
    exact List.nodup_nil
  · intro n p
    constructor
    · intro h
      exact absurd h (by rw [lookupOctant]; simp)
    · intro h
      rw [(initialize_fields bb 0).2.2.2.2] at h
      exact absurd h (List.not_mem_nil _)

theorem insertNode_eq (st : Octree) (env : NodeId → NodeData) (n : NodeId) :
    ∃ fuel, fuel ≤ st.numLevels ∧
      Octree.InsertNode st env n =
        { st with
          root := (Octree.insertDescent n (env n).worldBoundingBox.Center
            (env n).worldBoundingBox (env n).worldBoundingBox.Size fuel st.root).1,
          nodeOctant := setOctant st.nodeOctant n
            (Octree.insertDescent n (env n).worldBoundingBox.Center
              (env n).worldBoundingBox (env n).worldBoundingBox.Size fuel st.root).2 } := by
  rw [Octree.InsertNode]
  by_cases hc : st.root.cullingBox.IsInside (env n).worldBoundingBox ≠ Intersection.INSIDE
  · exact ⟨0, Nat.zero_le _, by rw [if_pos hc, Octree.insertDescent]⟩
  · exact ⟨st.numLevels, le_refl _, by rw [if_neg hc]⟩

theorem wf_after_descent (st : Octree) (n : NodeId) (bc : Vector3) (box : BoundingBox)
    (bs : Vector3) (fuel : Nat) (hwf : st.WF) (hfuel : fuel ≤ st.numLevels)
    (hun : lookupOctant st.nodeOctant n = none) :
    Octree.WF { st with
      root := (Octree.insertDescent n bc box bs fuel st.root).1,
      nodeOctant := setOctant st.nodeOctant n
        (Octree.insertDescent n bc box bs fuel st.root).2 } := by
  obtain ⟨hinv, hlev0, hndk, hndm, htrack⟩ := hwf
  have hfuel' : st.root.level + fuel ≤ st.numLevels := by rw [hlev0]; omega
  obtain ⟨s1, s2, s3, s4, ⟨A, B, hAB1, hAB2⟩, _⟩ :=
    insertDescent_spec n bc box bs st.numLevels fuel st.root hinv hfuel'
  have hnk : n ∉ st.root.nodesWithPaths.map Prod.fst := by
    intro hc
    obtain ⟨q, hq, hqn⟩ := List.mem_map.mp hc
    have : (n, q.2) ∈ st.root.nodesWithPaths := by
      have hq2 : q = (n, q.2) := by
        rw [← hqn]
      rw [← hq2]
      exact hq
    rw [← htrack n q.2] at this
    rw [hun] at this
    exact absurd this (by simp)
  have hnkA : n ∉ A.map Prod.fst := by
    intro hc
    apply hnk
    rw [hAB1, List.map_append]
    exact List.mem_append.mpr (Or.inl hc)
  have hnkB : n ∉ B.map Prod.fst := by
    intro hc
    apply hnk
    rw [hAB1, List.map_append]
    exact List.mem_append.mpr (Or.inr hc)
  refine ⟨s4, by rw [s2]; exact hlev0, ?_, ?_, ?_⟩
  · show ((Octree.insertDescent n bc box bs fuel st.root).1.nodesWithPaths.map Prod.fst).Nodup
    rw [hAB2, List.map_append, List.map_cons]
    rw [hAB1, List.map_append] at hndk
    rw [List.nodup_middle]
    rw [List.nodup_cons]
    refine ⟨?_, hndk⟩
    intro hc
    rcases List.mem_append.mp hc with h1 | h2
    · exact hnkA h1
    · exact hnkB h2
  · show ((setOctant st.nodeOctant n
      (Octree.insertDescent n bc box bs fuel st.root).2).map Prod.fst).Nodup
    rw [setOctant, List.map_cons, List.nodup_cons]
    exact ⟨not_mem_eraseOctant_keys st.nodeOctant n,
      (eraseOctant_keys_sublist st.nodeOctant n).nodup hndm⟩
  · intro k p
    show lookupOctant (setOctant st.nodeOctant n
        (Octree.insertDescent n bc box bs fuel st.root).2) k = some p ↔
      (k, p) ∈ (Octree.insertDescent n bc box bs fuel st.root).1.nodesWithPaths
    rw [lookupOctant_setOctant, hAB2]
    by_cases hk : k = n
    · subst hk
      rw [if_pos rfl]
      constructor
      · intro h
        rw [Option.some_inj] at h
        rw [← h]
        exact List.mem_append.mpr (Or.inr (List.mem_cons_self _ _))
      · intro h
        rcases List.mem_append.mp h with h1 | h2
        · exact absurd h1 (not_mem_pair_of_not_key A k p hnkA)
        · rcases List.mem_cons.mp h2 with h3 | h4
          · rw [Option.some_inj]
            exact (congrArg Prod.snd h3).symm
          · exact absurd h4 (not_mem_pair_of_not_key B k p hnkB)
    · rw [if_neg hk, htrack k p, hAB1]
      constructor
      · intro h
        rcases List.mem_append.mp h with h1 | h2
        · exact List.mem_append.mpr (Or.inl h1)
        · exact List.mem_append.mpr (Or.inr (List.mem_cons_of_mem _ h2))
      · intro h
        rcases List.mem_append.mp h with h1 | h2
        · exact List.mem_append.mpr (Or.inl h1)
        · rcases List.mem_cons.mp h2 with h3 | h4
          · exact absurd (congrArg Prod.fst h3) hk
          · exact List.mem_append.mpr (Or.inr h4)

theorem wf_insertNode (st : Octree) (env : NodeId → NodeData) (n : NodeId)
    (hwf : st.WF) (hun : lookupOctant st.nodeOctant n = none) :
    (Octree.InsertNode st env n).WF := by
  obtain ⟨fuel, hle, heq⟩ := insertNode_eq st env n
  rw [heq]
  exact wf_after_descent st n _ _ _ fuel hwf hle hun

theorem wf_removeNode (st : Octree) (n : NodeId) (hwf : st.WF) :
    (Octree.RemoveNode st n).WF := by
  obtain ⟨hinv, hlev0, hndk, hndm, htrack⟩ := hwf
  rw [Octree.RemoveNode]
  cases hl : lookupOctant st.nodeOctant n with
  | none => exact ⟨hinv, hlev0, hndk, hndm, htrack⟩
  | some p =>
      have hmem : (n, p) ∈ st.root.nodesWithPaths := (htrack n p).mp hl
      obtain ⟨r1, r2, r3, r4, r5⟩ := removeAtPath_spec n st.numLevels p st.root hinv
        (by rw [Octant.allNodes]; exact hndk) hmem
      refine ⟨r4, by rw [r2]; exact hlev0, ?_, ?_, ?_⟩
      · show ((Octree.removeAtPath n p st.root).nodesWithPaths.map Prod.fst).Nodup
        rw [r5]
        exact ((List.filter_sublist _).map Prod.fst).nodup hndk
      · show ((eraseOctant st.nodeOctant n).map Prod.fst).Nodup
        exact (eraseOctant_keys_sublist st.nodeOctant n).nodup hndm
      · intro k q
        show lookupOctant (eraseOctant st.nodeOctant n) k = some q ↔
          (k, q) ∈ (Octree.removeAtPath n p st.root).nodesWithPaths
        rw [lookupOctant_eraseOctant, r5]
        by_cases hk : k = n
        · subst hk
          rw [if_pos rfl]
          constructor
          · intro h
            exact absurd h (by simp)
          · intro h
            have := List.of_mem_filter h
            simp at this
        · rw [if_neg hk, htrack k q]
          constructor
          · intro h
            exact List.mem_filter.mpr ⟨h, by simpa using hk⟩
          · intro h
            exact (List.mem_filter.mp h).1

theorem removeNode_lookup_self (st : Octree) (n : NodeId) :
    lookupOctant (Octree.RemoveNode st n).nodeOctant n = none := by
  rw [Octree.RemoveNode]
  cases hl : lookupOctant st.nodeOctant n with
  | none => exact hl
  | some p =>
      show lookupOctant (eraseOctant st.nodeOctant n) n = none
      rw [lookupOctant_eraseOctant, if_pos rfl]

theorem wf_processUpdate (env : NodeId → NodeData) (st : Octree) (n : NodeId)
    (hwf : st.WF) : (Octree.processUpdate env st n).WF := by
  rw [Octree.processUpdate]
  split
  · exact hwf
  · split
    · exact hwf
    · split
      · exact hwf
      · exact wf_insertNode _ env n (wf_removeNode st n hwf)
          (removeNode_lookup_self st n)

theorem wf_foldl_processUpdate (env : NodeId → NodeData) :
    ∀ (q : List NodeId) (st : Octree), st.WF →
      (q.foldl (Octree.processUpdate env) st).WF := by
  intro q
  induction q with
  | nil => intro st h; exact h
  | cons a t ih =>
      intro st h
      rw [List.foldl_cons]
      exact ih _ (wf_processUpdate env st a h)

theorem wf_update (st : Octree) (env : NodeId → NodeData) (hwf : st.WF) :
    (Octree.Update st env).WF := by
  rw [Octree.Update]
  have h := wf_foldl_processUpdate env st.updateQueue st hwf
  exact ⟨h.1, h.2.1, h.2.2.1, h.2.2.2.1, h.2.2.2.2⟩

theorem wf_queueUpdate (st : Octree) (n : NodeId) (hwf : st.WF) :
    (Octree.QueueUpdate st n).WF := by
  rw [Octree.QueueUpdate]
  by_cases h : n ∈ st.updateQueue
  · rw [if_pos h]
    exact hwf
  · rw [if_neg h]
    exact ⟨hwf.1, hwf.2.1, hwf.2.2.1, hwf.2.2.2.1, hwf.2.2.2.2⟩

theorem wf_cancelUpdate (st : Octree) (n : NodeId) (hwf : st.WF) :
    (Octree.CancelUpdate st n).WF :=
  ⟨hwf.1, hwf.2.1, hwf.2.2.1, hwf.2.2.2.1, hwf.2.2.2.2⟩

theorem insertNode_lookup_other (st : Octree) (env : NodeId → NodeData) (a k : NodeId)
    (hka : k ≠ a) :
    lookupOctant (Octree.InsertNode st env a).nodeOctant k =
      lookupOctant st.nodeOctant k := by
  obtain ⟨fuel, _, heq⟩ := insertNode_eq st env a
  rw [heq]
  show lookupOctant (setOctant st.nodeOctant a _) k = _
  rw [lookupOctant_setOctant, if_neg hka]

theorem wf_foldl_insert (env : NodeId → NodeData) :
    ∀ (l : List NodeId) (s : Octree), s.WF → l.Nodup →
      (∀ k ∈ l, lookupOctant s.nodeOctant k = none) →
      (l.foldl (fun s n => Octree.InsertNode s env n) s).WF := by
  intro l
  induction l with
  | nil => intro s h _ _; exact h
  | cons a t ih =>
      intro s h hnd hl
      rw [List.foldl_cons]
      refine ih (Octree.InsertNode s env a)
        (wf_insertNode s env a h (hl a (List.mem_cons_self _ _)))
        (List.nodup_cons.mp hnd).2 ?_
      intro k hk
      have hka : k ≠ a := fun he => (List.nodup_cons.mp hnd).1 (he ▸ hk)
      rw [insertNode_lookup_other s env a k hka]
      exact hl k (List.mem_cons_of_mem _ hk)

theorem wf_resize (st : Octree) (env : NodeId → NodeData) (bb : BoundingBox) (nl : Nat)
    (hwf : st.WF) : (Octree.Resize st env bb nl).WF := by
  rw [Octree.Resize]
  refine wf_foldl_insert env (st.nodeOctant.map Prod.fst) _
    (wf_initialState bb nl [] rfl st.updateQueue) hwf.2.2.2.1 ?_
  intro k _
  rfl

theorem reachable_wf (st : Octree) (h : Octree.Reachable st) : st.WF := by
  induction h with
  | init bb nl => exact wf_initialState bb nl [] rfl []
  | insert st env n hr hun ih => exact wf_insertNode st env n ih hun
  | remove st n hr ih => exact wf_removeNode st n ih
  | queue st n hr ih => exact wf_queueUpdate st n ih
  | cancel st n hr ih => exact wf_cancelUpdate st n ih
  | update st env hr ih => exact wf_update st env ih
  | resize st env bb nl hr ih => exact wf_resize st env bb nl ih

theorem untracked_not_in_tree (st : Octree) (n : NodeId)
    (htrack : ∀ k p, lookupOctant st.nodeOctant k = some p ↔ (k, p) ∈ st.root.nodesWithPaths)
    (hun : lookupOctant st.nodeOctant n = none) :
    n ∉ st.root.nodesWithPaths.map Prod.fst := by
  intro hc
  obtain ⟨q, hq, hqn⟩ := List.mem_map.mp hc
  have hmem : (n, q.2) ∈ st.root.nodesWithPaths := by
    have hq2 : q = (n, q.2) := by rw [← hqn]
    rw [← hq2]
    exact hq
  rw [← htrack n q.2] at hmem
  rw [hun] at hmem
  exact absurd hmem (by simp)

theorem eraseOctant_setOctant_self (m : List (NodeId × List Nat)) (n : NodeId) (p : List Nat)
    (hun : lookupOctant m n = none) : eraseOctant (setOctant m n p) n = m := by
  rw [setOctant, eraseOctant_of_lookup_none m n hun, eraseOctant, if_pos rfl,
    eraseOctant_of_lookup_none m n hun]

theorem mem_some_getD (cs : List (Option Octant)) (c : Octant) (h : some c ∈ cs) :
    ∃ i, i < cs.length ∧ cs.getD i none = some c := by
  induction cs with
  | nil => simp at h
  | cons a rest ih =>
      rcases List.mem_cons.mp h with he | hr
      · exact ⟨0, by simp, by rw [List.getD_cons_zero, he]⟩
      · obtain ⟨i, hi, hg⟩ := ih hr
        exact ⟨i + 1, by simp only [List.length_cons]; omega,
          by rw [List.getD_cons_succ]; exact hg⟩

theorem collectVolumeChildren_eq_filter (env : NodeId → NodeData) (vol : Volume) (f : Nat) :
    ∀ (cs : List (Option Octant)),
      (∀ o, some o ∈ cs →
        (∀ p o', Octant.octantAt p o = some o' →
          vol.IsInside o'.cullingBox ≠ Intersection.OUTSIDE) →
        (∀ x ∈ o.allNodes,
          vol.IsInsideFast (env x).worldBoundingBox ≠ Intersection.OUTSIDE) →
        Octree.CollectNodesVolume env vol f o = o.allNodes.filter (nodeMatches env f)) →
      (∀ o, some o ∈ cs → ∀ p o', Octant.octantAt p o = some o' →
        vol.IsInside o'.cullingBox ≠ Intersection.OUTSIDE) →
      (∀ o, some o ∈ cs → ∀ x ∈ o.allNodes,
        vol.IsInsideFast (env x).worldBoundingBox ≠ Intersection.OUTSIDE) →
      ∀ j, collectVolumeChildren env vol f cs =
        ((nodesWithPathsChildren j cs).map Prod.fst).filter (nodeMatches env f) := by
  intro cs
  induction cs with
  | nil => intro _ _ _ j; rfl
  | cons c rest ih =>
      intro ihall hvol hfast j
      cases c with
      | none =>
          rw [collectVolumeChildren, nodesWithPathsChildren]
          exact ih (fun o ho => ihall o (List.mem_cons_of_mem _ ho))
            (fun o ho => hvol o (List.mem_cons_of_mem _ ho))
            (fun o ho => hfast o (List.mem_cons_of_mem _ ho)) (j + 1)
      | some o =>
          rw [collectVolumeChildren, nwpChildren_cons]
          simp only [optEntries]
          rw [List.map_append, map_fst_map_cons, List.filter_append]
          rw [ihall o (List.mem_cons_self _ _)
            (hvol o (List.mem_cons_self _ _)) (hfast o (List.mem_cons_self _ _))]
          rw [Octant.allNodes]
          rw [ih (fun o' ho' => ihall o' (List.mem_cons_of_mem _ ho'))
            (fun o' ho' => hvol o' (List.mem_cons_of_mem _ ho'))
            (fun o' ho' => hfast o' (List.mem_cons_of_mem _ ho')) (j + 1)]

theorem collectNodesVolume_eq_filter (env : NodeId → NodeData) (vol : Volume) (f : Nat) :
    ∀ o : Octant,
      (∀ p o', Octant.octantAt p o = some o' →
        vol.IsInside o'.cullingBox ≠ Intersection.OUTSIDE) →
      (∀ x ∈ o.allNodes, vol.IsInsideFast (env x).worldBoundingBox ≠ Intersection.OUTSIDE) →
      Octree.CollectNodesVolume env vol f o = o.allNodes.filter (nodeMatches env f) := by
  apply Octant.indOn
  intro cb wb ce hs lv ns num cs ih hvol hfast
  have hself : vol.IsInside cb ≠ Intersection.OUTSIDE := by
    have := hvol [] (Octant.mk cb wb ce hs lv ns num cs) rfl
    rw [Octant.cullingBox_mk] at this
    exact this
  cases hcl : vol.IsInside cb with
  | OUTSIDE => exact absurd hcl hself
  | INSIDE =>
      simp only [Octree.CollectNodesVolume, hcl]
      exact collectNodesFlags_eq_filter env f _
  | INTERSECT =>
      simp only [Octree.CollectNodesVolume, hcl]
      rw [Octant.allNodes, Octant.nodesWithPaths, List.map_append, map_fst_pairs,
        List.filter_append]
      have hown : ns.filter (fun n =>
          nodeMatches env f n &&
            (vol.IsInsideFast (env n).worldBoundingBox != Intersection.OUTSIDE)) =
          ns.filter (nodeMatches env f) := by
        apply List.filter_congr
        intro x hx
        have hxall : x ∈ (Octant.mk cb wb ce hs lv ns num cs).allNodes := by
          rw [Octant.allNodes, Octant.nodesWithPaths, List.map_append, map_fst_pairs]
          exact List.mem_append.mpr (Or.inl hx)
        have hfx := hfast x hxall
        have : (vol.IsInsideFast (env x).worldBoundingBox != Intersection.OUTSIDE) = true := by
          simpa using hfx
        rw [this, Bool.and_true]
      rw [hown]
      have hchild := collectVolumeChildren_eq_filter env vol f cs
        (fun o ho hv hf => ih o ho hv hf)
        ?_ ?_ 0
      · rw [hchild]
      · intro o ho p o' hat
        obtain ⟨i, hi, hgd⟩ := mem_some_getD cs o ho
        apply hvol (i :: p)
        rw [Octant.octantAt, Octant.getChild, Octant.children_mk, hgd]
        exact hat
      · intro o ho x hx
        apply hfast
        rw [Octant.allNodes, Octant.nodesWithPaths, List.map_append, map_fst_pairs]
        exact List.mem_append.mpr (Or.inr (keys_child_subset cs 0 o ho x hx))

/-- Claim C1: in every reachable octree state, every octant satisfies the
aggregate-count invariant: `numNodes` equals the length of its own node
list plus the sum of the existing children's `numNodes`, absent children
contributing 0. -/
theorem octree_numNodes_invariant (st : Octree) (h : Octree.Reachable st) :
    st.root.CountOk = true :=
  invB_countOk st.numLevels st.root (reachable_wf st h).1

/-- Claim C5: inserting an untracked object and then immediately removing
it restores the prior tree exactly: the same root octant (hence the same
set of octants with the same `numNodes`), and the same back-reference
map. -/
theorem insert_remove_roundtrip (st : Octree) (env : NodeId → NodeData) (n : NodeId)
    (h : Octree.Reachable st) (hun : lookupOctant st.nodeOctant n = none) :
    (Octree.RemoveNode (Octree.InsertNode st env n) n).root = st.root ∧
    (Octree.RemoveNode (Octree.InsertNode st env n) n).nodeOctant = st.nodeOctant := by
  obtain ⟨hinv, hlev0, hndk, hndm, htrack⟩ := reachable_wf st h
  obtain ⟨fuel, hle, heq⟩ := insertNode_eq st env n
  have hnk : n ∉ st.root.nodesWithPaths.map Prod.fst :=
    untracked_not_in_tree st n htrack hun
  have hfuel : st.root.level + fuel ≤ st.numLevels := by rw [hlev0]; omega
  have hrt := removeAtPath_insertDescent n (env n).worldBoundingBox.Center
    (env n).worldBoundingBox (env n).worldBoundingBox.Size st.numLevels fuel st.root
    hinv hfuel hnk
  have hlook : lookupOctant (setOctant st.nodeOctant n
      (Octree.insertDescent n (env n).worldBoundingBox.Center (env n).worldBoundingBox
        (env n).worldBoundingBox.Size fuel st.root).2) n =
      some (Octree.insertDescent n (env n).worldBoundingBox.Center
        (env n).worldBoundingBox (env n).worldBoundingBox.Size fuel st.root).2 := by
    rw [lookupOctant_setOctant, if_pos rfl]
  rw [heq]
  rw [Octree.RemoveNode]
  simp only [hlook]
  exact ⟨hrt, eraseOctant_setOctant_self st.nodeOctant n _ hun⟩

/-- Claim C6: in every reachable state no octant's level exceeds the
configured depth, and every insertion places the object in an octant that
either must keep it per `FitBoundingBox`, or sits at the depth cap (so no
further subdivision happened), or is the root receiving an object the
root's loose box does not fully contain. -/
theorem depth_bound_and_fit_contract (st : Octree) (h : Octree.Reachable st) :
    (∀ (p : List Nat) (o' : Octant), Octant.octantAt p st.root = some o' →
      o'.level ≤ st.numLevels) ∧
    (∀ (env : NodeId → NodeData) (n : NodeId), lookupOctant st.nodeOctant n = none →
      ∃ p oF, lookupOctant (Octree.InsertNode st env n).nodeOctant n = some p ∧
        Octant.octantAt p (Octree.InsertNode st env n).root = some oF ∧ n ∈ oF.nodes ∧
        (oF.FitBoundingBox (env n).worldBoundingBox (env n).worldBoundingBox.Size = true ∨
          oF.level = st.numLevels ∨
          (st.root.cullingBox.IsInside (env n).worldBoundingBox ≠ Intersection.INSIDE ∧
            p = []))) := by
  obtain ⟨hinv, hlev0, hndk, hndm, htrack⟩ := reachable_wf st h
  constructor
  · intro p o' hat
    have hsub := invB_octantAt st.numLevels p st.root hinv o' hat
    exact (invB_parts st.numLevels o' hsub.1).2.2.1
  · intro env n hun
    rw [Octree.InsertNode]
    by_cases hc : st.root.cullingBox.IsInside (env n).worldBoundingBox ≠ Intersection.INSIDE
    · rw [if_pos hc]
      obtain ⟨_, _, _, _, _, hAt, hMem, _⟩ := insertHere_spec st.numLevels st.root n
      refine ⟨[], st.root.pushNode n, ?_, hAt, hMem, Or.inr (Or.inr ⟨hc, rfl⟩)⟩
      show lookupOctant (setOctant st.nodeOctant n []) n = some []
      rw [lookupOctant_setOctant, if_pos rfl]
    · rw [if_neg hc]
      have hfuel : st.root.level + st.numLevels ≤ st.numLevels := by rw [hlev0]; omega
      obtain ⟨s1, s2, s3, s4, _, oF, hAt, hMem, hFit⟩ :=
        insertDescent_spec n (env n).worldBoundingBox.Center (env n).worldBoundingBox
          (env n).worldBoundingBox.Size st.numLevels st.numLevels st.root hinv hfuel
      refine ⟨(Octree.insertDescent n (env n).worldBoundingBox.Center
          (env n).worldBoundingBox (env n).worldBoundingBox.Size st.numLevels st.root).2,
        oF, ?_, hAt, hMem, ?_⟩
      · show lookupOctant (setOctant st.nodeOctant n _) n = some _
        rw [lookupOctant_setOctant, if_pos rfl]
      · rcases hFit with hf | hl
        · exact Or.inl hf
        · have hsub := invB_octantAt st.numLevels _ _ s4 oF hAt
          refine Or.inr (Or.inl ?_)
          rw [hsub.2, s2, hlev0, hl]
          omega

/-- Claim C3: on any reachable state, querying with a volume that
classifies every octant's culling box as not-OUTSIDE and every tracked
object's box as not-OUTSIDE under the fast test, with a flag mask matching
every tracked object, returns exactly the enabled tracked objects, each
exactly once. -/
theorem findNodes_enclosing_exact (st : Octree) (env : NodeId → NodeData) (volume : Volume)
    (nodeFlags : Nat) (dest : List NodeId) (h : Octree.Reachable st)
    (hvol : ∀ p o', Octant.octantAt p st.root = some o' →
      volume.IsInside o'.cullingBox ≠ Intersection.OUTSIDE)
    (hfast : ∀ n, lookupOctant st.nodeOctant n ≠ none →
      volume.IsInsideFast (env n).worldBoundingBox ≠ Intersection.OUTSIDE)
    (hflags : ∀ n, lookupOctant st.nodeOctant n ≠ none →
      (env n).flags &&& nodeFlags ≠ 0) :
    (Octree.FindNodes st env dest volume nodeFlags).Nodup ∧
    (∀ n, n ∈ Octree.FindNodes st env dest volume nodeFlags ↔
      (lookupOctant st.nodeOctant n ≠ none ∧ (env n).flags &&& NF_ENABLED ≠ 0)) := by
  obtain ⟨hinv, _, hndk, _, htrack⟩ := reachable_wf st h
  have hkeys_iff : ∀ n, lookupOctant st.nodeOctant n ≠ none ↔
      n ∈ st.root.nodesWithPaths.map Prod.fst := by
    intro n
    constructor
    · intro hne
      cases hl : lookupOctant st.nodeOctant n with
      | none => exact absurd hl hne
      | some p => exact List.mem_map.mpr ⟨(n, p), (htrack n p).mp hl, rfl⟩
    · intro hmem hl
      exact untracked_not_in_tree st n htrack hl hmem
  have hfast' : ∀ x ∈ st.root.allNodes,
      volume.IsInsideFast (env x).worldBoundingBox ≠ Intersection.OUTSIDE := by
    intro x hx
    exact hfast x ((hkeys_iff x).mpr (by rw [Octant.allNodes] at hx; exact hx))
  have hmain := collectNodesVolume_eq_filter env volume nodeFlags st.root hvol hfast'
  have hfind : Octree.FindNodes st env dest volume nodeFlags =
      st.root.allNodes.filter (nodeMatches env nodeFlags) := by
    rw [Octree.FindNodes, List.nil_append, hmain]
  constructor
  · rw [hfind]
    exact (List.filter_sublist _).nodup (by rw [Octant.allNodes]; exact hndk)
  · intro n
    rw [hfind, List.mem_filter]
    constructor
    · rintro ⟨hmem, hmatch⟩
      have htr : lookupOctant st.nodeOctant n ≠ none :=
        (hkeys_iff n).mpr (by rw [Octant.allNodes] at hmem; exact hmem)
      refine ⟨htr, ?_⟩
      rw [nodeMatches, Bool.and_eq_true] at hmatch
      simpa using hmatch.1
    · rintro ⟨htr, hen⟩
      refine ⟨by rw [Octant.allNodes]; exact (hkeys_iff n).mp htr, ?_⟩
      rw [nodeMatches, Bool.and_eq_true]
      exact ⟨by simpa using hen, by simpa using hflags n htr⟩

/-- Witness: the aggregate-count invariant applied to a concrete reachable
state obtained by one insertion into a freshly resized tree. -/
theorem octree_numNodes_invariant_witness :
    (Octree.InsertNode (Octree.initialState ⟨⟨0, 0, 0⟩, ⟨4, 4, 4⟩⟩ 3)
      (fun _ => ⟨⟨⟨1, 1, 1⟩, ⟨2, 2, 2⟩⟩, 1⟩) 5).root.CountOk = true :=
  octree_numNodes_invariant _
    (Octree.Reachable.insert _ _ 5 (Octree.Reachable.init _ 3) rfl)

/-- Witness: the three classification branches of the volume query applied
to concrete volumes and a concrete octant. -/
theorem collectNodesVolume_classification_witness :
    Octree.CollectNodesVolume (fun _ => ⟨⟨⟨1, 1, 1⟩, ⟨2, 2, 2⟩⟩, 1⟩)
        ⟨fun _ => Intersection.OUTSIDE, fun _ => Intersection.OUTSIDE⟩ 1
        (Octant.Initialize ⟨⟨0, 0, 0⟩, ⟨4, 4, 4⟩⟩ 0) = [] ∧
      Octree.CollectNodesVolume (fun _ => ⟨⟨⟨1, 1, 1⟩, ⟨2, 2, 2⟩⟩, 1⟩)
        ⟨fun _ => Intersection.INSIDE, fun _ => Intersection.INSIDE⟩ 1
        (Octant.Initialize ⟨⟨0, 0, 0⟩, ⟨4, 4, 4⟩⟩ 0) =
        Octree.CollectNodesFlags (fun _ => ⟨⟨⟨1, 1, 1⟩, ⟨2, 2, 2⟩⟩, 1⟩) 1
          (Octant.Initialize ⟨⟨0, 0, 0⟩, ⟨4, 4, 4⟩⟩ 0) ∧
      Octree.CollectNodesVolume (fun _ => ⟨⟨⟨1, 1, 1⟩, ⟨2, 2, 2⟩⟩, 1⟩)
        ⟨fun _ => Intersection.INTERSECT, fun _ => Intersection.INTERSECT⟩ 1
        (Octant.Initialize ⟨⟨0, 0, 0⟩, ⟨4, 4, 4⟩⟩ 0) =
        (Octant.Initialize ⟨⟨0, 0, 0⟩, ⟨4, 4, 4⟩⟩ 0).nodes.filter (fun n =>
          nodeMatches (fun _ => ⟨⟨⟨1, 1, 1⟩, ⟨2, 2, 2⟩⟩, 1⟩) 1 n &&
            ((⟨fun _ => Intersection.INTERSECT, fun _ => Intersection.INTERSECT⟩ :
              Volume).IsInsideFast
                ((fun _ => (⟨⟨⟨1, 1, 1⟩, ⟨2, 2, 2⟩⟩, 1⟩ : NodeData)) n).worldBoundingBox !=
              Intersection.OUTSIDE)) ++
          collectVolumeChildren (fun _ => ⟨⟨⟨1, 1, 1⟩, ⟨2, 2, 2⟩⟩, 1⟩)
            ⟨fun _ => Intersection.INTERSECT, fun _ => Intersection.INTERSECT⟩ 1
            (Octant.Initialize ⟨⟨0, 0, 0⟩, ⟨4, 4, 4⟩⟩ 0).children :=
  ⟨(collectNodesVolume_classification _ _ 1 _).1 rfl,
    ((collectNodesVolume_classification _ _ 1 _).2.1 rfl).1,
    (collectNodesVolume_classification _ _ 1 _).2.2.1 rfl⟩

/-- Witness: the exact-containment query applied to a concrete reachable
state holding one tracked enabled object, with an all-INSIDE volume. -/
theorem findNodes_enclosing_exact_witness :
    (Octree.FindNodes (Octree.InsertNode (Octree.initialState ⟨⟨0, 0, 0⟩, ⟨4, 4, 4⟩⟩ 3)
        (fun _ => ⟨⟨⟨1, 1, 1⟩, ⟨2, 2, 2⟩⟩, 1⟩) 5) (fun _ => ⟨⟨⟨1, 1, 1⟩, ⟨2, 2, 2⟩⟩, 1⟩) []
        ⟨fun _ => Intersection.INSIDE, fun _ => Intersection.INSIDE⟩ 1).Nodup ∧
      (5 ∈ Octree.FindNodes (Octree.InsertNode
          (Octree.initialState ⟨⟨0, 0, 0⟩, ⟨4, 4, 4⟩⟩ 3)
          (fun _ => ⟨⟨⟨1, 1, 1⟩, ⟨2, 2, 2⟩⟩, 1⟩) 5)
          (fun _ => ⟨⟨⟨1, 1, 1⟩, ⟨2, 2, 2⟩⟩, 1⟩) []
          ⟨fun _ => Intersection.INSIDE, fun _ => Intersection.INSIDE⟩ 1 ↔
        (lookupOctant (Octree.InsertNode (Octree.initialState ⟨⟨0, 0, 0⟩, ⟨4, 4, 4⟩⟩ 3)
            (fun _ => ⟨⟨⟨1, 1, 1⟩, ⟨2, 2, 2⟩⟩, 1⟩) 5).nodeOctant 5 ≠ none ∧
          ((fun _ => (⟨⟨⟨1, 1, 1⟩, ⟨2, 2, 2⟩⟩, 1⟩ : NodeData)) 5).flags &&&
            NF_ENABLED ≠ 0)) := by
  have h := findNodes_enclosing_exact
    (Octree.InsertNode (Octree.initialState ⟨⟨0, 0, 0⟩, ⟨4, 4, 4⟩⟩ 3)
      (fun _ => ⟨⟨⟨1, 1, 1⟩, ⟨2, 2, 2⟩⟩, 1⟩) 5)
    (fun _ => ⟨⟨⟨1, 1, 1⟩, ⟨2, 2, 2⟩⟩, 1⟩)
    ⟨fun _ => Intersection.INSIDE, fun _ => Intersection.INSIDE⟩ 1 []
    (Octree.Reachable.insert _ _ 5 (Octree.Reachable.init _ 3) rfl)
    (fun p o' _ => by simp) (fun n _ => by simp) (fun n _ => by simp [NF_ENABLED])
  exact ⟨h.1, h.2 5⟩

/-- Witness: the raycast minimality facts applied to a concrete state with
one object whose ray test returns a single hit at distance 1. -/
theorem raycastSingle_min_of_raycast_witness :
    (⟨⟨0, 0, 0⟩, ⟨0, 0, 0⟩, 1, 5⟩ : RaycastResult).distance ≤
      (⟨⟨0, 0, 0⟩, ⟨0, 0, 0⟩, 1, 5⟩ : RaycastResult).distance := by
  have h := raycastSingle_min_of_raycast
    ⟨Octant.mk ⟨⟨-2, -2, -2⟩, ⟨6, 6, 6⟩⟩ ⟨⟨0, 0, 0⟩, ⟨4, 4, 4⟩⟩ ⟨2, 2, 2⟩ ⟨2, 2, 2⟩ 0
      [5] 1 (List.replicate 8 none), 3, [(5, [])], []⟩
    (fun _ => ⟨⟨⟨1, 1, 1⟩, ⟨2, 2, 2⟩⟩, 1⟩)
    (fun n _ _ => [⟨⟨0, 0, 0⟩, ⟨0, 0, 0⟩, 1, n⟩])
    (fun _ _ => some 0) [] ⟨⟨0, 0, 0⟩, ⟨1, 0, 0⟩⟩ 1 10
  have hcoll : Octree.CollectNodesRay (fun _ => ⟨⟨⟨1, 1, 1⟩, ⟨2, 2, 2⟩⟩, 1⟩)
      (fun n _ _ => [⟨⟨0, 0, 0⟩, ⟨0, 0, 0⟩, 1, n⟩]) (fun _ _ => some 0)
      ⟨⟨0, 0, 0⟩, ⟨1, 0, 0⟩⟩ 1 10
      (Octant.mk ⟨⟨-2, -2, -2⟩, ⟨6, 6, 6⟩⟩ ⟨⟨0, 0, 0⟩, ⟨4, 4, 4⟩⟩ ⟨2, 2, 2⟩ ⟨2, 2, 2⟩ 0
        [5] 1 (List.replicate 8 none)) =
      [⟨⟨0, 0, 0⟩, ⟨0, 0, 0⟩, 1, 5⟩] := by
    rw [Octree.CollectNodesRay]
    norm_num [nodeMatches, NF_ENABLED, List.replicate, collectRayChildren]
  refine h.2 _ ?_ _ ?_
  · show _ ∈ Octree.Raycast _ _ _ _ _ _ _ _
    rw [Octree.Raycast, hcoll]
    simp [List.insertionSort, List.orderedInsert]
  · show Octree.RaycastSingle _ _ _ _ _ _ _ = _
    rw [Octree.RaycastSingle, hcoll]
    rfl

/-- Witness: the insert-then-remove round trip applied to a concrete
fresh tree and object. -/
theorem insert_remove_roundtrip_witness :
    (Octree.RemoveNode (Octree.InsertNode (Octree.initialState ⟨⟨0, 0, 0⟩, ⟨4, 4, 4⟩⟩ 3)
        (fun _ => ⟨⟨⟨1, 1, 1⟩, ⟨2, 2, 2⟩⟩, 1⟩) 5) 5).root =
      (Octree.initialState ⟨⟨0, 0, 0⟩, ⟨4, 4, 4⟩⟩ 3).root ∧
    (Octree.RemoveNode (Octree.InsertNode (Octree.initialState ⟨⟨0, 0, 0⟩, ⟨4, 4, 4⟩⟩ 3)
        (fun _ => ⟨⟨⟨1, 1, 1⟩, ⟨2, 2, 2⟩⟩, 1⟩) 5) 5).nodeOctant =
      (Octree.initialState ⟨⟨0, 0, 0⟩, ⟨4, 4, 4⟩⟩ 3).nodeOctant :=
  insert_remove_roundtrip _ _ 5 (Octree.Reachable.init _ 3) rfl

/-- Witness: the depth bound at the concrete root and the tracked
placement produced by a concrete insertion. -/
theorem depth_bound_and_fit_contract_witness :
    (Octree.initialState ⟨⟨0, 0, 0⟩, ⟨4, 4, 4⟩⟩ 3).root.level ≤
        (Octree.initialState ⟨⟨0, 0, 0⟩, ⟨4, 4, 4⟩⟩ 3).numLevels ∧
      lookupOctant (Octree.InsertNode (Octree.initialState ⟨⟨0, 0, 0⟩, ⟨4, 4, 4⟩⟩ 3)
        (fun _ => ⟨⟨⟨1, 1, 1⟩, ⟨2, 2, 2⟩⟩, 1⟩) 5).nodeOctant 5 ≠ none := by
  refine ⟨(depth_bound_and_fit_contract _ (Octree.Reachable.init _ 3)).1 [] _ rfl, ?_⟩
  obtain ⟨p, oF, h1, _⟩ := (depth_bound_and_fit_contract _
    (Octree.Reachable.init ⟨⟨0, 0, 0⟩, ⟨4, 4, 4⟩⟩ 3)).2
    (fun _ => ⟨⟨⟨1, 1, 1⟩, ⟨2, 2, 2⟩⟩, 1⟩) 5 rfl
  rw [h1]
  simp

/-- Witness: the queue and removal no-ops applied to a concrete fresh
tree. -/
theorem queue_and_remove_noop_witness :
    Octree.QueueUpdate (Octree.QueueUpdate
        (Octree.initialState ⟨⟨0, 0, 0⟩, ⟨4, 4, 4⟩⟩ 3) 7) 7 =
      Octree.QueueUpdate (Octree.initialState ⟨⟨0, 0, 0⟩, ⟨4, 4, 4⟩⟩ 3) 7 ∧
    Octree.CancelUpdate (Octree.initialState ⟨⟨0, 0, 0⟩, ⟨4, 4, 4⟩⟩ 3) 8 =
      Octree.initialState ⟨⟨0, 0, 0⟩, ⟨4, 4, 4⟩⟩ 3 ∧
    Octree.RemoveNode (Octree.initialState ⟨⟨0, 0, 0⟩, ⟨4, 4, 4⟩⟩ 3) 9 =
      Octree.initialState ⟨⟨0, 0, 0⟩, ⟨4, 4, 4⟩⟩ 3 := by
  obtain ⟨h1, h2, h3⟩ :=
    queue_and_remove_noop (Octree.initialState ⟨⟨0, 0, 0⟩, ⟨4, 4, 4⟩⟩ 3) 7 8 9
  exact ⟨h1, h2 (by simp [Octree.initialState]), h3 rfl⟩

/-- Witness: boundary classification at a concrete octant whose center has
x coordinate 2, probed with a position lying exactly on that plane. -/
theorem childIndex_boundary_positive_witness :
    Nat.testBit ((Octant.Initialize ⟨⟨0, 0, 0⟩, ⟨4, 4, 4⟩⟩ 0).ChildIndex ⟨2, 0, 0⟩) 0 = true ∧
      (Octant.Initialize ⟨⟨0, 0, 0⟩, ⟨4, 4, 4⟩⟩ 0).ChildIndex
        (Octant.Initialize ⟨⟨0, 0, 0⟩, ⟨4, 4, 4⟩⟩ 0).center = 7 := by
  obtain ⟨h1, _, _, h4⟩ := childIndex_boundary_positive
    (Octant.Initialize ⟨⟨0, 0, 0⟩, ⟨4, 4, 4⟩⟩ 0) ⟨2, 0, 0⟩
  refine ⟨h1 ?_, h4⟩
  show (2 : ℚ) = (Octant.Initialize ⟨⟨0, 0, 0⟩, ⟨4, 4, 4⟩⟩ 0).center.x
  norm_num [Octant.Initialize, BoundingBox.Center, Vector3.add, Vector3.half]

end Turso3D
